import Mathlib

/-!
# AVL tree of `AVL/AVL.h`

A shallow embedding of the template class `AVL<T>` and of its private helper
functions on `Vertex*`.

## Memory model

The tree exclusively owns its vertices, so a `Vertex*` slot is modelled by the
value that sits behind it.  A slot is in one of three states:

* `Vertex.null`     : the slot holds `nullptr`;
* `Vertex.node`     : the slot points to a live vertex with the four members
                      `height`, `left`, `data`, `right`;
* `Vertex.dangling` : the slot still holds the address of a vertex that has
                      been handed to `delete` (the source frees a vertex in
                      `remove` without resetting the slot that owns it).

Every function that dereferences a pointer returns an `Option`; `none` stands
for undefined behaviour (a dereference of `nullptr` or of a deleted vertex).
The C++ `int` members `height` and `numberOfElements` are read in two ways.
The functions named as in the source compute with mathematical integers; they
are used for the trees that calls of `insert` build from the empty tree.  The
functions whose names end in `32` are the same functions with every `int`
result wrapped to 32 bits in two's complement; they are used where a
statement ranges over arbitrary counters or arbitrary stored heights.
The element type `T` is a linear order whose `<`, `>` and `==` are the ones of
the order.
-/

set_option autoImplicit false

/-- Slot of type `Vertex*` together with the vertex behind it (members of
`class Vertex`: `height`, `left`, `data`, `right`). -/
inductive Vertex (T : Type) where
  | null : Vertex T
  | node (height : Int) (left : Vertex T) (data : T) (right : Vertex T) : Vertex T
  | dangling : Vertex T
  deriving DecidableEq

/-- The enumeration `WeightStatus`. -/
inductive WeightStatus where
  | BALANCED
  | LEFT_HEAVY
  | RIGHT_HEAVY
  | ERROR
  deriving DecidableEq

/-- The class `AVL<T>`: members `root`, `finder`, `numberOfElements`.  The
pointer `finder` is modelled by the vertex it points to (`Vertex.null` for
`nullptr`), which is exact as long as no mutation happens between the `find`
that sets it and the read. -/
structure AVL (T : Type) where
  root : Vertex T
  finder : Vertex T
  numberOfElements : Int
  deriving DecidableEq

namespace Vertex

variable {T : Type}

/-- `AVL<T>::max(int, int)`. -/
def max (a b : Int) : Int := if a > b then a else b

/-- `AVL<T>::getHeight(const Vertex*)`. -/
def getHeight : Vertex T → Option Int
  | null => some (-1)
  | node h _ _ _ => some h
  | dangling => none

/-- `AVL<T>::updateHeight(Vertex*&)`. -/
def updateHeight : Vertex T → Option (Vertex T)
  | null => some null
  | node _ l d r => do
      let lh ← getHeight l
      let rh ← getHeight r
      some (node (1 + max lh rh) l d r)
  | dangling => none

/-- `AVL<T>::getWeight(const Vertex*)`. -/
def getWeight : Vertex T → Option WeightStatus
  | null => some WeightStatus.ERROR
  | node _ l _ r => do
      let lh ← getHeight l
      let rh ← getHeight r
      let diff := lh - rh
      if diff > 1 then some WeightStatus.LEFT_HEAVY
      else if diff < -1 then some WeightStatus.RIGHT_HEAVY
      else some WeightStatus.BALANCED
  | dangling => none

/-- `AVL<T>::leftRotation(Vertex*&)`: `current->right` is dereferenced without
a null check. -/
def leftRotation : Vertex T → Option (Vertex T)
  | null => some null
  | node h l d (node rh rl rd rr) => do
      let newLeft ← updateHeight (node h l d rl)
      updateHeight (node rh newLeft rd rr)
  | node _ _ _ null => none
  | node _ _ _ dangling => none
  | dangling => none

/-- `AVL<T>::rightRotation(Vertex*&)`: `current->left` is dereferenced without
a null check. -/
def rightRotation : Vertex T → Option (Vertex T)
  | null => some null
  | node h (node lh ll ld lr) d r => do
      let newRight ← updateHeight (node h lr d r)
      updateHeight (node lh ll ld newRight)
  | node _ null _ _ => none
  | node _ dangling _ _ => none
  | dangling => none

/-- `AVL<T>::balance(Vertex*&)`. -/
def balance : Vertex T → Option (Vertex T)
  | null => some null
  | dangling => none
  | node h l d r => do
      let w ← getWeight (node h l d r)
      if w = WeightStatus.LEFT_HEAVY then
        let w ← getWeight l
        if w = WeightStatus.LEFT_HEAVY ∨ w = WeightStatus.BALANCED then
          rightRotation (node h l d r)
        else
          let l2 ← leftRotation l
          rightRotation (node h l2 d r)
      else if w = WeightStatus.RIGHT_HEAVY then
        let w ← getWeight r
        if w = WeightStatus.RIGHT_HEAVY ∨ w = WeightStatus.BALANCED then
          leftRotation (node h l d r)
        else
          let r2 ← rightRotation r
          leftRotation (node h l d r2)
      else
        some (node h l d r)

variable [LinearOrder T]

/-- `AVL<T>::insert(const T&, Vertex*&)`; the member `numberOfElements` is
threaded through as the third argument. -/
def insert (entry : T) : Vertex T → Int → Option (Vertex T × Int)
  | null, n => do
      let c ← updateHeight (node 0 null entry null)
      let c ← balance c
      some (c, n + 1)
  | node h l d r, n =>
      if entry > d then do
        let (r2, n2) ← insert entry r n
        let c ← updateHeight (node h l d r2)
        let c ← balance c
        some (c, n2)
      else do
        let (l2, n2) ← insert entry l n
        let c ← updateHeight (node h l2 d r)
        let c ← balance c
        some (c, n2)
  | dangling, _ => none

/-- `AVL<T>::displayInOrder(const Vertex*)`: the values written to the output
stream, in the order they are written. -/
def displayInOrder : Vertex T → Option (List T)
  | null => some []
  | node _ l d r => do
      let a ← displayInOrder l
      let b ← displayInOrder r
      some (a ++ d :: b)
  | dangling => none

/-- `AVL<T>::getMin(const Vertex*)`: the vertex the returned pointer points
to (`null` for `nullptr`). -/
def getMin : Vertex T → Option (Vertex T)
  | null => some null
  | node h l d r =>
      match l with
      | null => some (node h l d r)
      | _ => getMin l
  | dangling => none

/-- `AVL<T>::getMax(const Vertex*)`: the vertex the returned pointer points
to (`null` for `nullptr`). -/
def getMax : Vertex T → Option (Vertex T)
  | null => some null
  | node h l d r =>
      match r with
      | null => some (node h l d r)
      | _ => getMax r
  | dangling => none

/-- Read of `p->data` through a pointer `p`. -/
def readData : Vertex T → Option T
  | node _ _ d _ => some d
  | _ => none

/-- Effect of `delete min` in `remove` on the subtree that `getMin` walked:
the left-most vertex is freed, the slot that points to it is not reset. -/
def deleteMin : Vertex T → Vertex T
  | null => null
  | node h l d r =>
      match l with
      | null => dangling
      | _ => node h (deleteMin l) d r
  | dangling => dangling

/-- Effect of `delete max` in `remove` on the subtree that `getMax` walked:
the right-most vertex is freed, the slot that points to it is not reset. -/
def deleteMax : Vertex T → Vertex T
  | null => null
  | node h l d r =>
      match r with
      | null => dangling
      | _ => node h l d (deleteMax r)
  | dangling => dangling

/-- `AVL<T>::remove(const T&, Vertex*&)`; the member `numberOfElements` is
threaded through, and `rnd` is the value that `rand()` returns if the
two-child case calls it. -/
def remove (target : T) (rnd : Nat) : Vertex T → Int → Option (Vertex T × Int)
  | null, n => do
      let c ← updateHeight null
      let c ← balance c
      some (c, n)
  | node h l d r, n =>
      if target = d then do
        let n2 := n - 1
        let c ←
          if l ≠ null ∧ r ≠ null then
            if rnd % 2 = 0 then do
              let m ← getMax l
              let md ← readData m
              some (node h (deleteMax l) md r)
            else do
              let m ← getMin r
              let md ← readData m
              some (node h l md (deleteMin r))
          else if l ≠ null then some l
          else if r ≠ null then some r
          else some null
        let c ← updateHeight c
        let c ← balance c
        some (c, n2)
      else if target > d then do
        let (r2, n2) ← remove target rnd r n
        let c ← updateHeight (node h l d r2)
        let c ← balance c
        some (c, n2)
      else do
        let (l2, n2) ← remove target rnd l n
        let c ← updateHeight (node h l2 d r)
        let c ← balance c
        some (c, n2)
  | dangling, _ => none

/-- `AVL<T>::find(Vertex*, const T&)`: the vertex the returned pointer points
to (`null` for `nullptr`). -/
def find : Vertex T → T → Option (Vertex T)
  | null, _ => some null
  | node h l d r, target =>
      if target = d then some (node h l d r)
      else if target < d then find l target
      else find r target
  | dangling, _ => none

/-- `AVL<T>::clear(Vertex*&)`. -/
def clear : Vertex T → Option (Vertex T)
  | null => some null
  | node _ l _ r => do
      let _ ← clear r
      let _ ← clear l
      some null
  | dangling => none

end Vertex

namespace AVL

variable {T : Type}

/-- `AVL<T>::AVL()`. -/
def empty : AVL T := ⟨Vertex.null, Vertex.null, 0⟩

/-- `AVL<T>::size()`. -/
def size (t : AVL T) : Int := t.numberOfElements

/-- `AVL<T>::isEmpty()`. -/
def isEmpty (t : AVL T) : Bool :=
  match t.root with
  | Vertex.null => true
  | _ => false

/-- `AVL<T>::getHeight()`. -/
def getHeight (t : AVL T) : Option Int := Vertex.getHeight t.root

variable [LinearOrder T]

/-- `AVL<T>::insert(const T&)`. -/
def insert (t : AVL T) (entry : T) : Option (AVL T) := do
  let (r, n) ← Vertex.insert entry t.root t.numberOfElements
  some ⟨r, t.finder, n⟩

/-- `AVL<T>::remove(const T&)`; `rnd` is the value `rand()` returns if it is
called. -/
def remove (t : AVL T) (target : T) (rnd : Nat) : Option (AVL T) := do
  let (r, n) ← Vertex.remove target rnd t.root t.numberOfElements
  some ⟨r, t.finder, n⟩

/-- `AVL<T>::find(const T&)`: the returned `bool` and the state with the
member `finder` assigned. -/
def find (t : AVL T) (target : T) : Option (Bool × AVL T) := do
  let f ← Vertex.find t.root target
  some (decide (f ≠ Vertex.null), ⟨t.root, f, t.numberOfElements⟩)

/-- `AVL<T>::getFoundData()`. -/
def getFoundData (t : AVL T) : Option T := Vertex.readData t.finder

/-- `AVL<T>::clear()`. -/
def clear (t : AVL T) : Option (AVL T) := do
  let r ← Vertex.clear t.root
  some ⟨r, t.finder, t.numberOfElements⟩

/-- `AVL<T>::displayInOrder()`. -/
def displayInOrder (t : AVL T) : Option (List T) := Vertex.displayInOrder t.root

/-- Successive calls `insert(x)` for the elements `x` of a list, first element
first. -/
def insertAll : List T → AVL T → Option (AVL T)
  | [], t => some t
  | x :: xs, t => do
      let t2 ← t.insert x
      insertAll xs t2

/-- The tree obtained from the empty tree by inserting the elements of a list
one by one. -/
def build (xs : List T) : Option (AVL T) := insertAll xs empty

/-- Root of the tree that `insert(2)`, `insert(4)`, `insert(6)` build: the
vertex 4 with the leaves 2 and 6. -/
def sampleRoot : Vertex Nat :=
  Vertex.node 1 (Vertex.node 0 Vertex.null 2 Vertex.null) 4
    (Vertex.node 0 Vertex.null 6 Vertex.null)

end AVL


/-! ## Observations on trees used to state the properties -/

namespace Vertex

variable {T : Type}

/-- Number of live vertices reachable from a slot. -/
def numNodes : Vertex T → Nat
  | null => 0
  | node _ l _ r => numNodes l + numNodes r + 1
  | dangling => 0

/-- Values of the live vertices reachable from a slot, left subtree first,
then the vertex, then the right subtree. -/
def toList : Vertex T → List T
  | null => []
  | node _ l d r => toList l ++ d :: toList r
  | dangling => []

/-- Stored height read through a slot, with `-1` for an absent child. -/
def ht : Vertex T → Int
  | null => -1
  | node h _ _ _ => h
  | dangling => -1

/-- Height of the tree shape itself: `-1` for an absent child (a freed vertex
counts as absent), one more than the higher child for a vertex. -/
def trueHeight : Vertex T → Int
  | null => -1
  | node _ l _ r => 1 + Max.max (trueHeight l) (trueHeight r)
  | dangling => -1

/-- The three-way classification that `getWeight` applies to the difference
`height(left) - height(right)`. -/
def classify (diff : Int) : WeightStatus :=
  if diff > 1 then WeightStatus.LEFT_HEAVY
  else if diff < -1 then WeightStatus.RIGHT_HEAVY
  else WeightStatus.BALANCED

/-- No deleted vertex is reachable and every stored height is non-negative
(the constructor stores `0`, `updateHeight` stores `1 + max` of two values that
are at least `-1`). -/
def wellFormed : Vertex T → Bool
  | null => true
  | node h l _ r => decide (0 ≤ h) && wellFormed l && wellFormed r
  | dangling => false

/-- Height correctness: every vertex stores `1 + max(height(left),
height(right))`, the heights of the children read with `getHeight`. -/
def heightCorrect : Vertex T → Bool
  | null => true
  | node h l _ r =>
      (match getHeight l, getHeight r with
        | some a, some b => decide (h = 1 + Vertex.max a b)
        | _, _ => false) && heightCorrect l && heightCorrect r
  | dangling => false

/-- AVL balance on the stored heights: at every vertex the heights of the two
children, read with `getHeight`, differ by at most one. -/
def isBalanced : Vertex T → Bool
  | null => true
  | node _ l _ r =>
      (match getHeight l, getHeight r with
        | some a, some b => decide (a - b ≤ 1 ∧ b - a ≤ 1)
        | _, _ => false) && isBalanced l && isBalanced r
  | dangling => false

/-- AVL balance on the shape: at every vertex the true heights of the two
subtrees differ by at most one. -/
def shapeBalanced : Vertex T → Bool
  | null => true
  | node _ l _ r =>
      decide (trueHeight l - trueHeight r ≤ 1 ∧ trueHeight r - trueHeight l ≤ 1)
        && shapeBalanced l && shapeBalanced r
  | dangling => false

end Vertex

/-! ## Traversals, iterator, copy construction and extremal values -/

namespace Vertex

variable {T : Type}

/-- `AVL<T>::displayPreOrder(const Vertex*)`: the values written to the output
stream; both recursive calls in the source are calls of `displayInOrder`. -/
def displayPreOrder : Vertex T → Option (List T)
  | null => some []
  | node _ l d r => do
      let a ← displayInOrder l
      let b ← displayInOrder r
      some (d :: (a ++ b))
  | dangling => none

/-- `AVL<T>::displayPostOrder(const Vertex*)`: the values written to the output
stream; both recursive calls in the source are calls of `displayInOrder`. -/
def displayPostOrder : Vertex T → Option (List T)
  | null => some []
  | node _ l d r => do
      let a ← displayInOrder l
      let b ← displayInOrder r
      some (a ++ b ++ [d])
  | dangling => none

/-- Pre-order as the specification words it: the value of a vertex, then the
pre-order of its left subtree, then the pre-order of its right subtree. -/
def preOrder : Vertex T → List T
  | null => []
  | node _ l d r => d :: (preOrder l ++ preOrder r)
  | dangling => []

/-- Post-order as the specification words it: the post-order of the left
subtree, the post-order of the right subtree, then the value of the vertex. -/
def postOrder : Vertex T → List T
  | null => []
  | node _ l d r => postOrder l ++ postOrder r ++ [d]
  | dangling => []

/-- No deleted vertex is reachable from a slot. -/
def noDangling : Vertex T → Bool
  | null => true
  | node _ l _ r => noDangling l && noDangling r
  | dangling => false

end Vertex

/-- The class `AVL<T>::Iterator`: members `parents` (a `stack<Vertex*>`, top
of the stack first) and `current`. -/
structure AVL.Iterator (T : Type) where
  parents : List (Vertex T)
  current : Vertex T
  deriving DecidableEq

namespace AVL.Iterator

variable {T : Type}

/-- The loop `while(current){ parents.push(current); current = current->left; }`
of `Iterator::next`: the stack after the loop (`current` is null then). -/
def pushLeft : Vertex T → List (Vertex T) → Option (List (Vertex T))
  | Vertex.null, ps => some ps
  | Vertex.node h l d r, ps => pushLeft l (Vertex.node h l d r :: ps)
  | Vertex.dangling, _ => none

/-- `AVL<T>::Iterator::next()`: the returned value and the iterator after the
call.  `parents.top()` on an empty stack has no defined result. -/
def next (it : Iterator T) : Option (T × Iterator T) := do
  let ps ← pushLeft it.current it.parents
  match ps with
  | [] => none
  | Vertex.node _ _ d r :: rest => some (d, ⟨rest, r⟩)
  | _ :: _ => none

/-- `AVL<T>::Iterator::hasNext()`. -/
def hasNext (it : Iterator T) : Bool :=
  (match it.current with
    | Vertex.null => false
    | _ => true) || !it.parents.isEmpty

/-- `AVL<T>::Iterator::operator=`: only `current` is copied, the stack of the
assigned iterator stays as it is. -/
def assign (self src : Iterator T) : Iterator T := ⟨self.parents, src.current⟩

/-- The first `k` calls of `next()`: the values returned, in order, and the
iterator after the last call. -/
def nextN : Nat → Iterator T → Option (List T × Iterator T)
  | 0, it => some ([], it)
  | k + 1, it => do
      let (x, it2) ← next it
      let (xs, it3) ← nextN k it2
      some (x :: xs, it3)

/-- The loop `while(it.hasNext()) it.next();` with the returned values
collected; the first argument bounds the number of calls of `next()`, and the
result is `none` when that bound is too small. -/
def drain : Nat → Iterator T → Option (List T)
  | 0, it => if hasNext it then none else some []
  | fuel + 1, it =>
      if hasNext it then do
        let (x, it2) ← next it
        let xs ← drain fuel it2
        some (x :: xs)
      else some []

/-- Values a stack entry still has to deliver: its own value, then its right
subtree. -/
def frameValues : Vertex T → List T
  | Vertex.node _ _ d r => d :: Vertex.toList r
  | _ => []

/-- Values the stack still has to deliver, top of the stack first. -/
def stackValues : List (Vertex T) → List T
  | [] => []
  | v :: vs => frameValues v ++ stackValues vs

/-- Values an iterator still has to deliver. -/
def pending (it : Iterator T) : List T :=
  Vertex.toList it.current ++ stackValues it.parents

/-- Every stack entry is a live vertex whose right subtree reaches no deleted
vertex. -/
def stackOk : List (Vertex T) → Bool
  | [] => true
  | Vertex.node _ _ _ r :: vs => Vertex.noDangling r && stackOk vs
  | _ :: _ => false

end AVL.Iterator

namespace AVL

variable {T : Type}

/-- `AVL<T>::begin()`. -/
def begin (t : AVL T) : Iterator T := ⟨[], t.root⟩

/-- `AVL<T>::displayPreOrder()`. -/
def displayPreOrder (t : AVL T) : Option (List T) := Vertex.displayPreOrder t.root

/-- `AVL<T>::displayPostOrder()`. -/
def displayPostOrder (t : AVL T) : Option (List T) := Vertex.displayPostOrder t.root

/-- `AVL<T>::getMin()`. -/
def getMin (t : AVL T) : Option T := (Vertex.getMin t.root).bind Vertex.readData

/-- `AVL<T>::getMax()`. -/
def getMax (t : AVL T) : Option T := (Vertex.getMax t.root).bind Vertex.readData

variable [LinearOrder T]

/-- The loop `while(src_itr.hasNext()) this->insert(src_itr.next());` of the
copy constructor; the first argument bounds the number of rounds, and the
result is `none` when that bound is too small. -/
def copyLoop : Nat → Iterator T → AVL T → Option (AVL T)
  | 0, it, t => if it.hasNext then none else some t
  | fuel + 1, it, t =>
      if it.hasNext then do
        let (x, it2) ← it.next
        let t2 ← t.insert x
        copyLoop fuel it2 t2
      else some t

/-- `AVL<T>::AVL(const AVL&)`.  The constructor assigns `root` and `finder`
only; `garbage` is the value the uninitialised member `numberOfElements` holds
when the body starts. -/
def copy (fuel : Nat) (garbage : Int) (src : AVL T) : Option (AVL T) :=
  copyLoop fuel (Iterator.assign ⟨[], Vertex.null⟩ src.begin)
    ⟨Vertex.null, Vertex.null, garbage⟩

/-- Strict search-tree order at every vertex: every value of the left subtree
is smaller than the value of the vertex, every value of the right subtree is
greater. -/
def strictOrdered : Vertex T → Bool
  | Vertex.null => true
  | Vertex.node _ l d r =>
      (Vertex.toList l).all (fun a => decide (a < d)) &&
      (Vertex.toList r).all (fun b => decide (d < b)) &&
      strictOrdered l && strictOrdered r
  | Vertex.dangling => false

/-- Search-tree order with ties allowed at every vertex: no value of the left
subtree is greater than the value of the vertex, no value of the right subtree
is smaller. -/
def weakOrdered : Vertex T → Bool
  | Vertex.null => true
  | Vertex.node _ l d r =>
      (Vertex.toList l).all (fun a => decide (a ≤ d)) &&
      (Vertex.toList r).all (fun b => decide (d ≤ b)) &&
      weakOrdered l && weakOrdered r
  | Vertex.dangling => false

/-- Least number of vertices of an AVL tree, indexed by height plus one:
`N(-1) = 0`, `N(0) = 1`, `N(k) = N(k-1) + N(k-2) + 1`. -/
def minNodes : Nat → Nat
  | 0 => 0
  | 1 => 1
  | k + 2 => minNodes (k + 1) + minNodes k + 1

end AVL

/-! ## The `int` arithmetic made explicit -/

/-- Largest value of the 32-bit C++ type `int`. -/
def INT_MAX : Int := 2147483647

/-- The value a 32-bit two's complement `int` holds when the mathematical
result of the expression is `x`. -/
def wrapInt (x : Int) : Int := (x + 2147483648) % 4294967296 - 2147483648

namespace Vertex

variable {T : Type}

/-- `AVL<T>::updateHeight(Vertex*&)` with the `int` addition wrapped. -/
def updateHeight32 : Vertex T → Option (Vertex T)
  | null => some null
  | node _ l d r => do
      let lh ← getHeight l
      let rh ← getHeight r
      some (node (wrapInt (1 + max lh rh)) l d r)
  | dangling => none

/-- `AVL<T>::getWeight(const Vertex*)` with the `int` subtraction wrapped. -/
def getWeight32 : Vertex T → Option WeightStatus
  | null => some WeightStatus.ERROR
  | node _ l _ r => do
      let lh ← getHeight l
      let rh ← getHeight r
      let diff := wrapInt (lh - rh)
      if diff > 1 then some WeightStatus.LEFT_HEAVY
      else if diff < -1 then some WeightStatus.RIGHT_HEAVY
      else some WeightStatus.BALANCED
  | dangling => none

/-- `AVL<T>::leftRotation(Vertex*&)` over `updateHeight32`. -/
def leftRotation32 : Vertex T → Option (Vertex T)
  | null => some null
  | node h l d (node rh rl rd rr) => do
      let newLeft ← updateHeight32 (node h l d rl)
      updateHeight32 (node rh newLeft rd rr)
  | node _ _ _ null => none
  | node _ _ _ dangling => none
  | dangling => none

/-- `AVL<T>::rightRotation(Vertex*&)` over `updateHeight32`. -/
def rightRotation32 : Vertex T → Option (Vertex T)
  | null => some null
  | node h (node lh ll ld lr) d r => do
      let newRight ← updateHeight32 (node h lr d r)
      updateHeight32 (node lh ll ld newRight)
  | node _ null _ _ => none
  | node _ dangling _ _ => none
  | dangling => none

/-- `AVL<T>::balance(Vertex*&)` over `getWeight32` and the rotations above. -/
def balance32 : Vertex T → Option (Vertex T)
  | null => some null
  | dangling => none
  | node h l d r => do
      let w ← getWeight32 (node h l d r)
      if w = WeightStatus.LEFT_HEAVY then
        let w ← getWeight32 l
        if w = WeightStatus.LEFT_HEAVY ∨ w = WeightStatus.BALANCED then
          rightRotation32 (node h l d r)
        else
          let l2 ← leftRotation32 l
          rightRotation32 (node h l2 d r)
      else if w = WeightStatus.RIGHT_HEAVY then
        let w ← getWeight32 r
        if w = WeightStatus.RIGHT_HEAVY ∨ w = WeightStatus.BALANCED then
          leftRotation32 (node h l d r)
        else
          let r2 ← rightRotation32 r
          leftRotation32 (node h l d r2)
      else
        some (node h l d r)

/-- No deleted vertex is reachable and every stored height lies between 0 and
`INT_MAX - 1`. -/
def heightsInRange : Vertex T → Bool
  | null => true
  | node h l _ r => decide (0 ≤ h ∧ h < INT_MAX) && heightsInRange l && heightsInRange r
  | dangling => false

variable [LinearOrder T]

/-- `AVL<T>::insert(const T&, Vertex*&)` with `++numberOfElements` wrapped,
over `updateHeight32` and `balance32`. -/
def insert32 (entry : T) : Vertex T → Int → Option (Vertex T × Int)
  | null, n => do
      let c ← updateHeight32 (node 0 null entry null)
      let c ← balance32 c
      some (c, wrapInt (n + 1))
  | node h l d r, n =>
      if entry > d then do
        let (r2, n2) ← insert32 entry r n
        let c ← updateHeight32 (node h l d r2)
        let c ← balance32 c
        some (c, n2)
      else do
        let (l2, n2) ← insert32 entry l n
        let c ← updateHeight32 (node h l2 d r)
        let c ← balance32 c
        some (c, n2)
  | dangling, _ => none

end Vertex

namespace AVL

variable {T : Type} [LinearOrder T]

/-- `AVL<T>::insert(const T&)` over `Vertex.insert32`. -/
def insert32 (t : AVL T) (entry : T) : Option (AVL T) := do
  let (r, n) ← Vertex.insert32 entry t.root t.numberOfElements
  some ⟨r, t.finder, n⟩

/-- Successive calls `insert(x)` for the elements `x` of a list, first element
first, over `insert32`. -/
def insertAll32 : List T → AVL T → Option (AVL T)
  | [], t => some t
  | x :: xs, t => do
      let t2 ← t.insert32 x
      insertAll32 xs t2

/-- The tree obtained from the empty tree by inserting the elements of a list
one by one, over `insert32`. -/
def build32 (xs : List T) : Option (AVL T) := insertAll32 xs empty

end AVL

/-! ## Basic facts -/

namespace Vertex

variable {T : Type}

theorem max_def (a b : Int) : Vertex.max a b = Max.max a b := by
  unfold Vertex.max
  split_ifs with h
  · exact (max_eq_left (le_of_lt h)).symm
  · exact (max_eq_right (not_lt.mp h)).symm

theorem wellFormed_node {h : Int} {l r : Vertex T} {d : T} :
    wellFormed (node h l d r) = true ↔ 0 ≤ h ∧ wellFormed l = true ∧ wellFormed r = true := by
  simp [wellFormed, and_assoc]

theorem getHeight_of_wellFormed {t : Vertex T} (hw : wellFormed t = true) :
    getHeight t = some (ht t) := by
  cases t <;> simp_all [wellFormed, getHeight, ht]

theorem ht_ge_of_wellFormed {t : Vertex T} (hw : wellFormed t = true) : -1 ≤ ht t := by
  cases t <;> simp_all [wellFormed, ht]
  omega

theorem updateHeight_node {l r : Vertex T} (h : Int) (d : T)
    (hl : wellFormed l = true) (hr : wellFormed r = true) :
    updateHeight (node h l d r) = some (node (1 + Max.max (ht l) (ht r)) l d r) := by
  simp [updateHeight, getHeight_of_wellFormed hl, getHeight_of_wellFormed hr, max_def]

theorem heightCorrect_wellFormed {t : Vertex T} (hc : heightCorrect t = true) :
    wellFormed t = true := by
  induction t with
  | null => rfl
  | dangling => simp [heightCorrect] at hc
  | node h l d r ihl ihr =>
    simp only [heightCorrect, Bool.and_eq_true] at hc
    obtain ⟨⟨h1, h2⟩, h3⟩ := hc
    have wl := ihl h2
    have wr := ihr h3
    rw [getHeight_of_wellFormed wl, getHeight_of_wellFormed wr] at h1
    have := ht_ge_of_wellFormed wl
    have := ht_ge_of_wellFormed wr
    simp only [max_def, decide_eq_true_eq] at h1
    rw [wellFormed_node]
    exact ⟨by omega, wl, wr⟩

theorem heightCorrect_node {h : Int} {l r : Vertex T} {d : T}
    (hl : wellFormed l = true) (hr : wellFormed r = true) :
    heightCorrect (node h l d r) = true ↔
      h = 1 + Max.max (ht l) (ht r) ∧ heightCorrect l = true ∧ heightCorrect r = true := by
  simp [heightCorrect, getHeight_of_wellFormed hl, getHeight_of_wellFormed hr, max_def,
    and_assoc]

theorem exists_node_of_ht {t : Vertex T} (hw : wellFormed t = true) (h : 0 ≤ ht t) :
    ∃ h1 l d r, t = node h1 l d r := by
  cases t with
  | null => simp [ht] at h
  | dangling => simp [wellFormed] at hw
  | node h1 l d r => exact ⟨h1, l, d, r, rfl⟩

theorem ht_node (h : Int) (l r : Vertex T) (d : T) : ht (node h l d r) = h := rfl

theorem wellFormed_updated {l r : Vertex T} {k : Int} (d : T)
    (hk : k = 1 + Max.max (ht l) (ht r))
    (hl : wellFormed l = true) (hr : wellFormed r = true) :
    wellFormed (node k l d r) = true := by
  have := ht_ge_of_wellFormed hl
  have := ht_ge_of_wellFormed hr
  rw [wellFormed_node]
  exact ⟨by omega, hl, hr⟩

theorem heightCorrect_updated {l r : Vertex T} {k : Int} (d : T)
    (hk : k = 1 + Max.max (ht l) (ht r))
    (hl : heightCorrect l = true) (hr : heightCorrect r = true) :
    heightCorrect (node k l d r) = true :=
  (heightCorrect_node (heightCorrect_wellFormed hl) (heightCorrect_wellFormed hr)).mpr
    ⟨hk, hl, hr⟩

theorem heightCorrect_children {h : Int} {l r : Vertex T} {d : T}
    (hc : heightCorrect (node h l d r) = true) :
    heightCorrect l = true ∧ heightCorrect r = true := by
  simp only [heightCorrect, Bool.and_eq_true] at hc
  exact ⟨hc.1.2, hc.2⟩

/-- A left rotation on a vertex with a right child: defined, keeps the
in-order sequence and the number of vertices, leaves correct heights. -/
theorem leftRotation_spec {l rl rr : Vertex T} (h rh : Int) (d rd : T)
    (hl : wellFormed l = true) (hrl : wellFormed rl = true) (hrr : wellFormed rr = true) :
    ∃ t2, leftRotation (node h l d (node rh rl rd rr)) = some t2 ∧ wellFormed t2 = true ∧
      toList t2 = toList l ++ d :: (toList rl ++ rd :: toList rr) ∧
      numNodes t2 = numNodes l + numNodes rl + numNodes rr + 2 ∧
      (heightCorrect l = true → heightCorrect rl = true → heightCorrect rr = true →
        heightCorrect t2 = true) := by
  have hn := wellFormed_updated d rfl hl hrl
  refine ⟨node (1 + Max.max (1 + Max.max (ht l) (ht rl)) (ht rr))
        (node (1 + Max.max (ht l) (ht rl)) l d rl) rd rr, ?_, ?_, ?_, ?_, ?_⟩
  · rw [leftRotation, updateHeight_node h d hl hrl]
    simp only [Option.bind_eq_bind, Option.some_bind]
    rw [updateHeight_node rh rd hn hrr, ht_node]
  · exact wellFormed_updated rd (by rw [ht_node]) hn hrr
  · simp [toList]
  · simp only [numNodes]; omega
  · intro c1 c2 c3
    exact heightCorrect_updated rd (by rw [ht_node]) (heightCorrect_updated d rfl c1 c2) c3

/-- A right rotation on a vertex with a left child: defined, keeps the
in-order sequence and the number of vertices, leaves correct heights. -/
theorem rightRotation_spec {ll lr r : Vertex T} (h lh : Int) (d ld : T)
    (hll : wellFormed ll = true) (hlr : wellFormed lr = true) (hr : wellFormed r = true) :
    ∃ t2, rightRotation (node h (node lh ll ld lr) d r) = some t2 ∧ wellFormed t2 = true ∧
      toList t2 = (toList ll ++ ld :: toList lr) ++ d :: toList r ∧
      numNodes t2 = numNodes ll + numNodes lr + numNodes r + 2 ∧
      (heightCorrect ll = true → heightCorrect lr = true → heightCorrect r = true →
        heightCorrect t2 = true) := by
  have hn := wellFormed_updated d rfl hlr hr
  refine ⟨node (1 + Max.max (ht ll) (1 + Max.max (ht lr) (ht r))) ll ld
        (node (1 + Max.max (ht lr) (ht r)) lr d r), ?_, ?_, ?_, ?_, ?_⟩
  · rw [rightRotation, updateHeight_node h d hlr hr]
    simp only [Option.bind_eq_bind, Option.some_bind]
    rw [updateHeight_node lh ld hll hn, ht_node]
  · exact wellFormed_updated ld (by rw [ht_node]) hll hn
  · simp [toList]
  · simp only [numNodes]; omega
  · intro c1 c2 c3
    exact heightCorrect_updated ld (by rw [ht_node]) c1 (heightCorrect_updated d rfl c2 c3)

theorem classify_left (x : Int) : classify x = WeightStatus.LEFT_HEAVY ↔ 1 < x := by
  unfold classify; split_ifs <;> simp_all

theorem classify_right (x : Int) : classify x = WeightStatus.RIGHT_HEAVY ↔ x < -1 := by
  unfold classify; split_ifs <;> simp_all
  omega

theorem classify_balanced (x : Int) :
    classify x = WeightStatus.BALANCED ↔ -1 ≤ x ∧ x ≤ 1 := by
  unfold classify
  split_ifs with h1 h2
  · simp only [reduceCtorEq, false_iff]; omega
  · simp only [reduceCtorEq, false_iff]; omega
  · simp only [true_iff]; omega

theorem getWeight_node {l r : Vertex T} (h : Int) (d : T)
    (hl : wellFormed l = true) (hr : wellFormed r = true) :
    getWeight (node h l d r) = some (classify (ht l - ht r)) := by
  simp only [getWeight, getHeight_of_wellFormed hl, getHeight_of_wellFormed hr,
    Option.bind_eq_bind, Option.some_bind, classify]
  split_ifs <;> rfl

/-- What `balance` does on a vertex whose subtrees are well formed: it never
dereferences an absent child, keeps the in-order sequence and the number of
vertices, and keeps the stored heights correct. -/
theorem balance_spec (h : Int) (l r : Vertex T) (d : T) (h0 : 0 ≤ h)
    (hl : wellFormed l = true) (hr : wellFormed r = true) :
    ∃ t2, balance (node h l d r) = some t2 ∧ wellFormed t2 = true ∧
      toList t2 = toList l ++ d :: toList r ∧
      numNodes t2 = numNodes l + numNodes r + 1 ∧
      (h = 1 + Max.max (ht l) (ht r) → heightCorrect l = true → heightCorrect r = true →
        heightCorrect t2 = true) := by
  have gl := ht_ge_of_wellFormed hl
  have gr := ht_ge_of_wellFormed hr
  rw [balance, getWeight_node h d hl hr]
  simp only [Option.bind_eq_bind, Option.some_bind, classify_left, classify_right]
  by_cases h1 : 1 < ht l - ht r
  · obtain ⟨lh, ll, ld, lr, rfl⟩ := exists_node_of_ht hl (by omega)
    obtain ⟨hlh, hll, hlr⟩ := wellFormed_node.mp hl
    have glr := ht_ge_of_wellFormed hlr
    have gll := ht_ge_of_wellFormed hll
    rw [if_pos h1, getWeight_node lh ld hll hlr]
    simp only [Option.bind_eq_bind, Option.some_bind, classify_left, classify_balanced]
    split_ifs with h3
    · obtain ⟨t2, e1, e2, e3, e4, e5⟩ := rightRotation_spec h lh d ld hll hlr hr
      refine ⟨t2, e1, e2, e3, ?_, ?_⟩
      · rw [e4]; simp only [numNodes]; omega
      · intro _ hcl hcr
        obtain ⟨c1, c2⟩ := heightCorrect_children hcl
        exact e5 c1 c2 hcr
    · obtain ⟨lrh, lrl, lrd, lrr, rfl⟩ := exists_node_of_ht hlr (by omega)
      obtain ⟨hlrh, hlrl, hlrr⟩ := wellFormed_node.mp hlr
      obtain ⟨m, m1, m2, m3, m4, m5⟩ := leftRotation_spec lh lrh ld lrd hll hlrl hlrr
      rw [m1]
      simp only [Option.bind_eq_bind, Option.some_bind]
      obtain ⟨mh, ml, md, mr, rfl⟩ : ∃ mh ml md mr, m = node mh ml md mr := by
        cases m with
        | null => simp [numNodes] at m4
        | dangling => simp [wellFormed] at m2
        | node mh ml md mr => exact ⟨mh, ml, md, mr, rfl⟩
      obtain ⟨hmh, hml, hmr⟩ := wellFormed_node.mp m2
      obtain ⟨t2, e1, e2, e3, e4, e5⟩ := rightRotation_spec h mh d md hml hmr hr
      refine ⟨t2, e1, e2, ?_, ?_, ?_⟩
      · rw [e3]
        simp only [toList] at m3 ⊢
        rw [m3]
      · rw [e4]
        simp only [numNodes] at m4 ⊢
        omega
      · intro _ hcl hcr
        obtain ⟨c1, c2⟩ := heightCorrect_children hcl
        obtain ⟨c3, c4⟩ := heightCorrect_children c2
        obtain ⟨c5, c6⟩ := heightCorrect_children (m5 c1 c3 c4)
        exact e5 c5 c6 hcr
  · rw [if_neg h1]
    by_cases h2 : ht l - ht r < -1
    · obtain ⟨rh, rl, rd, rr, rfl⟩ := exists_node_of_ht hr (by omega)
      obtain ⟨hrh, hrl, hrr⟩ := wellFormed_node.mp hr
      have grl := ht_ge_of_wellFormed hrl
      have grr := ht_ge_of_wellFormed hrr
      rw [if_pos h2, getWeight_node rh rd hrl hrr]
      simp only [Option.bind_eq_bind, Option.some_bind, classify_right, classify_balanced]
      split_ifs with h3
      · obtain ⟨t2, e1, e2, e3, e4, e5⟩ := leftRotation_spec h rh d rd hl hrl hrr
        refine ⟨t2, e1, e2, ?_, ?_, ?_⟩
        · rw [e3]; simp only [toList]
        · rw [e4]; simp only [numNodes]; omega
        · intro _ hcl hcr
          obtain ⟨c1, c2⟩ := heightCorrect_children hcr
          exact e5 hcl c1 c2
      · obtain ⟨rlh, rll, rld, rlr, rfl⟩ := exists_node_of_ht hrl (by omega)
        obtain ⟨hrlh, hrll, hrlr⟩ := wellFormed_node.mp hrl
        obtain ⟨m, m1, m2, m3, m4, m5⟩ := rightRotation_spec rh rlh rd rld hrll hrlr hrr
        rw [m1]
        simp only [Option.bind_eq_bind, Option.some_bind]
        obtain ⟨mh, ml, md, mr, rfl⟩ : ∃ mh ml md mr, m = node mh ml md mr := by
          cases m with
          | null => simp [numNodes] at m4
          | dangling => simp [wellFormed] at m2
          | node mh ml md mr => exact ⟨mh, ml, md, mr, rfl⟩
        obtain ⟨hmh, hml, hmr⟩ := wellFormed_node.mp m2
        obtain ⟨t2, e1, e2, e3, e4, e5⟩ := leftRotation_spec h mh d md hl hml hmr
        refine ⟨t2, e1, e2, ?_, ?_, ?_⟩
        · rw [e3]
          simp only [toList] at m3 ⊢
          rw [m3]
        · rw [e4]
          simp only [numNodes] at m4 ⊢
          omega
        · intro _ hcl hcr
          obtain ⟨c1, c2⟩ := heightCorrect_children hcr
          obtain ⟨c3, c4⟩ := heightCorrect_children c1
          obtain ⟨c5, c6⟩ := heightCorrect_children (m5 c3 c4 c2)
          exact e5 hcl c5 c6
    · rw [if_neg h2]
      refine ⟨node h l d r, rfl, wellFormed_node.mpr ⟨h0, hl, hr⟩, rfl, rfl, ?_⟩
      intro hh hcl hcr
      exact heightCorrect_updated d hh hcl hcr

theorem displayInOrder_of_wellFormed {t : Vertex T} (hw : wellFormed t = true) :
    displayInOrder t = some (toList t) := by
  induction t with
  | null => rfl
  | dangling => simp [wellFormed] at hw
  | node h l d r ihl ihr =>
    obtain ⟨_, hl, hr⟩ := wellFormed_node.mp hw
    simp [displayInOrder, ihl hl, ihr hr, toList]

section Order

variable [LinearOrder T]

theorem orderedInsert_append_le (x d : T) (hxd : x ≤ d) (L R : List T) :
    List.orderedInsert (· ≤ ·) x (L ++ d :: R) = List.orderedInsert (· ≤ ·) x L ++ d :: R := by
  induction L with
  | nil => simp [List.orderedInsert, hxd]
  | cons b L ih =>
    by_cases hb : x ≤ b
    · simp [List.orderedInsert, hb]
    · simp [List.orderedInsert, hb, ih]

theorem orderedInsert_append_lt (x : T) (L M : List T) (hL : ∀ a ∈ L, a < x) :
    List.orderedInsert (· ≤ ·) x (L ++ M) = L ++ List.orderedInsert (· ≤ ·) x M := by
  induction L with
  | nil => rfl
  | cons b L ih =>
    have hb : ¬ x ≤ b := not_le.mpr (hL b (List.mem_cons_self b L))
    have ih2 := ih (fun a ha => hL a (List.mem_cons_of_mem b ha))
    simp [List.orderedInsert, hb, ih2]

/-- What the recursive `insert` does on a well-formed subtree: it returns, adds
one to the counter, adds one vertex, keeps the stored heights correct, and
puts the entry in front of the first value that is not smaller. -/
theorem insert_spec (x : T) (t : Vertex T) (hw : wellFormed t = true) (n : Int) :
    ∃ t2, insert x t n = some (t2, n + 1) ∧ wellFormed t2 = true ∧
      numNodes t2 = numNodes t + 1 ∧
      (heightCorrect t = true → heightCorrect t2 = true) ∧
      ((toList t).Sorted (· ≤ ·) → toList t2 = List.orderedInsert (· ≤ ·) x (toList t)) ∧
      (toList t2).Perm (x :: toList t) := by
  induction t generalizing n with
  | dangling => simp [wellFormed] at hw
  | null =>
    have hu : updateHeight (node 0 (null : Vertex T) x null) =
        some (node (1 + Max.max (ht (null : Vertex T)) (ht (null : Vertex T))) null x null) :=
      updateHeight_node 0 x rfl rfl
    obtain ⟨t2, e1, e2, e3, e4, e5⟩ :=
      balance_spec (1 + Max.max (ht (null : Vertex T)) (ht (null : Vertex T)))
        (null : Vertex T) null x (by simp [ht]) rfl rfl
    refine ⟨t2, ?_, e2, ?_, ?_, ?_, ?_⟩
    · rw [insert, hu]
      simp only [Option.bind_eq_bind, Option.some_bind, e1]
    · rw [e4]; simp [numNodes]
    · intro _
      exact e5 rfl rfl rfl
    · intro _
      rw [e3]; simp [toList]
    · rw [e3]; simp [toList]
  | node h l d r ihl ihr =>
    obtain ⟨h0, hl, hr⟩ := wellFormed_node.mp hw
    by_cases hx : x > d
    · obtain ⟨r2, i1, i2, i3, i4, i5, i6⟩ := ihr hr n
      have gl := ht_ge_of_wellFormed hl
      have gr := ht_ge_of_wellFormed i2
      obtain ⟨t2, e1, e2, e3, e4, e5⟩ :=
        balance_spec (1 + Max.max (ht l) (ht r2)) l r2 d (by omega) hl i2
      refine ⟨t2, ?_, e2, ?_, ?_, ?_, ?_⟩
      · rw [insert, if_pos hx, i1]
        simp only [Option.bind_eq_bind, Option.some_bind]
        rw [updateHeight_node h d hl i2]
        simp only [Option.some_bind, e1]
      · rw [e4, i3]; simp only [numNodes]; omega
      · intro hc
        obtain ⟨c1, c2⟩ := heightCorrect_children hc
        exact e5 rfl c1 (i4 c2)
      · intro hs
        simp only [toList] at hs ⊢
        have hp := List.pairwise_append.mp hs
        have hR : (toList r).Sorted (· ≤ ·) := (List.pairwise_cons.mp hp.2.1).2
        have hlt : ∀ a ∈ toList l ++ [d], a < x := by
          intro a ha
          rcases List.mem_append.mp ha with ha | ha
          · exact lt_of_le_of_lt (hp.2.2 a ha d (List.mem_cons_self d _)) hx
          · rw [List.mem_singleton.mp ha]; exact hx
        rw [e3, i5 hR]
        have := orderedInsert_append_lt x (toList l ++ [d]) (toList r) hlt
        simpa using this.symm
      · rw [e3]
        simp only [toList]
        exact (List.Perm.append_left (toList l) (List.Perm.trans (List.Perm.cons d i6)
          (List.Perm.swap x d (toList r)))).trans List.perm_middle
    · obtain ⟨l2, i1, i2, i3, i4, i5, i6⟩ := ihl hl n
      have gl := ht_ge_of_wellFormed i2
      have gr := ht_ge_of_wellFormed hr
      obtain ⟨t2, e1, e2, e3, e4, e5⟩ :=
        balance_spec (1 + Max.max (ht l2) (ht r)) l2 r d (by omega) i2 hr
      refine ⟨t2, ?_, e2, ?_, ?_, ?_, ?_⟩
      · rw [insert, if_neg hx, i1]
        simp only [Option.bind_eq_bind, Option.some_bind]
        rw [updateHeight_node h d i2 hr]
        simp only [Option.some_bind, e1]
      · rw [e4, i3]; simp only [numNodes]; omega
      · intro hc
        obtain ⟨c1, c2⟩ := heightCorrect_children hc
        exact e5 rfl (i4 c1) c2
      · intro hs
        simp only [toList] at hs ⊢
        have hp := List.pairwise_append.mp hs
        rw [e3, i5 hp.1]
        exact (orderedInsert_append_le x d (not_lt.mp hx) (toList l) (toList r)).symm
      · rw [e3]
        simp only [toList]
        exact (List.Perm.append_right (d :: toList r) i6)

end Order

end Vertex

namespace Vertex

variable {T : Type}

theorem ht_eq_trueHeight {t : Vertex T} (hc : heightCorrect t = true) :
    ht t = trueHeight t := by
  induction t with
  | null => rfl
  | dangling => simp [heightCorrect] at hc
  | node h l d r ihl ihr =>
    obtain ⟨c1, c2⟩ := heightCorrect_children hc
    have e := (heightCorrect_node (heightCorrect_wellFormed c1)
      (heightCorrect_wellFormed c2)).mp hc
    rw [ht_node, trueHeight, ← ihl c1, ← ihr c2]
    exact e.1

end Vertex

namespace AVL

variable {T : Type} [LinearOrder T]

theorem insert_root_spec (t : AVL T) (v : T) (hw : Vertex.wellFormed t.root = true) :
    ∃ t2, t.insert v = some t2 ∧ Vertex.wellFormed t2.root = true ∧
      t2.numberOfElements = t.numberOfElements + 1 ∧
      Vertex.numNodes t2.root = Vertex.numNodes t.root + 1 ∧
      (Vertex.heightCorrect t.root = true → Vertex.heightCorrect t2.root = true) ∧
      ((Vertex.toList t.root).Sorted (· ≤ ·) →
        Vertex.toList t2.root = List.orderedInsert (· ≤ ·) v (Vertex.toList t.root)) ∧
      (Vertex.toList t2.root).Perm (v :: Vertex.toList t.root) ∧
      t2.finder = t.finder := by
  obtain ⟨r2, e1, e2, e3, e4, e5, e6⟩ := Vertex.insert_spec v t.root hw t.numberOfElements
  refine ⟨⟨r2, t.finder, t.numberOfElements + 1⟩, ?_, e2, rfl, e3, e4, e5, e6, rfl⟩
  simp only [insert, e1, Option.bind_eq_bind, Option.some_bind]

theorem insertAll_spec (xs : List T) (t : AVL T) (hw : Vertex.wellFormed t.root = true) :
    ∃ t2, insertAll xs t = some t2 ∧ Vertex.wellFormed t2.root = true ∧
      t2.numberOfElements = t.numberOfElements + xs.length ∧
      Vertex.numNodes t2.root = Vertex.numNodes t.root + xs.length ∧
      (Vertex.heightCorrect t.root = true → Vertex.heightCorrect t2.root = true) ∧
      ((Vertex.toList t.root).Sorted (· ≤ ·) → (Vertex.toList t2.root).Sorted (· ≤ ·)) ∧
      (Vertex.toList t2.root).Perm (xs ++ Vertex.toList t.root) ∧
      t2.finder = t.finder := by
  induction xs generalizing t with
  | nil => exact ⟨t, rfl, hw, by simp, by simp, id, id, by simp, rfl⟩
  | cons x xs ih =>
    obtain ⟨t1, e1, e2, e3, e4, e5, e6, e7, e8⟩ := insert_root_spec t x hw
    obtain ⟨t2, f1, f2, f3, f4, f5, f6, f7, f8⟩ := ih t1 e2
    refine ⟨t2, ?_, f2, ?_, ?_, fun h => f5 (e5 h), ?_, ?_, f8.trans e8⟩
    · simp only [insertAll, e1, Option.bind_eq_bind, Option.some_bind, f1]
    · rw [f3, e3]; simp only [List.length_cons]; push_cast; omega
    · rw [f4, e4]; simp only [List.length_cons]; omega
    · intro hs
      apply f6
      rw [e6 hs]
      exact List.Sorted.orderedInsert x _ hs
    · refine f7.trans ?_
      refine (List.Perm.append_left xs e7).trans ?_
      exact @List.perm_middle T x xs (Vertex.toList t.root)

/-- Everything the later results need about a tree built by inserts. -/
theorem build_spec (xs : List T) :
    ∃ t, build xs = some t ∧ Vertex.wellFormed t.root = true ∧
      Vertex.heightCorrect t.root = true ∧
      t.numberOfElements = xs.length ∧ Vertex.numNodes t.root = xs.length ∧
      Vertex.toList t.root = xs.insertionSort (· ≤ ·) ∧ t.finder = Vertex.null := by
  obtain ⟨t, e1, e2, e3, e4, e5, e6, e7, e8⟩ := insertAll_spec xs (empty : AVL T) rfl
  refine ⟨t, e1, e2, e5 rfl, ?_, ?_, ?_, e8⟩
  · rw [e3]; simp [empty]
  · rw [e4]; simp [empty, Vertex.numNodes]
  · have hs : (Vertex.toList t.root).Sorted (· ≤ ·) := e6 (by simp [empty, Vertex.toList])
    have hp : (Vertex.toList t.root).Perm xs := by
      simpa [empty, Vertex.toList] using e7
    exact List.eq_of_perm_of_sorted (hp.trans (List.perm_insertionSort (· ≤ ·) xs).symm) hs
      (List.sorted_insertionSort (· ≤ ·) xs)

/-! ## Insertion -/

/-- C1: for lists `xs`, `ys` over a linear order with `ys` a permutation of
`xs`, inserting the elements of `xs` one by one into the empty tree succeeds
and the in-order traversal of the result is `xs` sorted in non-decreasing order
(a sorted permutation of `xs`); inserting `ys` instead gives the same
traversal. -/
theorem inorder_of_build_sorted (xs ys : List T) (hp : ys.Perm xs) :
    ∃ t u, build xs = some t ∧ build ys = some u ∧
      t.displayInOrder = some (xs.insertionSort (· ≤ ·)) ∧
      (xs.insertionSort (· ≤ ·)).Sorted (· ≤ ·) ∧
      (xs.insertionSort (· ≤ ·)).Perm xs ∧
      u.displayInOrder = t.displayInOrder := by
  obtain ⟨t, e1, e2, _, _, _, e6, _⟩ := build_spec xs
  obtain ⟨u, f1, f2, _, _, _, f6, _⟩ := build_spec ys
  have ht : t.displayInOrder = some (xs.insertionSort (· ≤ ·)) := by
    rw [displayInOrder, Vertex.displayInOrder_of_wellFormed e2, e6]
  have hu : u.displayInOrder = some (ys.insertionSort (· ≤ ·)) := by
    rw [displayInOrder, Vertex.displayInOrder_of_wellFormed f2, f6]
  refine ⟨t, u, e1, f1, ht, List.sorted_insertionSort (· ≤ ·) xs,
    List.perm_insertionSort (· ≤ ·) xs, ?_⟩
  rw [ht, hu]
  congr 1
  exact List.eq_of_perm_of_sorted
    (((List.perm_insertionSort (· ≤ ·) ys).trans hp).trans
      (List.perm_insertionSort (· ≤ ·) xs).symm)
    (List.sorted_insertionSort (· ≤ ·) ys) (List.sorted_insertionSort (· ≤ ·) xs)

/-- Instance of C1 at `xs = [3, 1, 2]`, `ys = [2, 3, 1]`. -/
theorem inorder_of_build_sorted_witness :
    [2, 3, 1].Perm [3, 1, 2] ∧
    ∃ t u : AVL Nat, build [3, 1, 2] = some t ∧ build [2, 3, 1] = some u ∧
      t.displayInOrder = some ([3, 1, 2].insertionSort (· ≤ ·)) ∧
      ([3, 1, 2].insertionSort (· ≤ ·)).Sorted (· ≤ ·) ∧
      ([3, 1, 2].insertionSort (· ≤ ·)).Perm [3, 1, 2] ∧
      u.displayInOrder = t.displayInOrder :=
  ⟨by decide, inorder_of_build_sorted [3, 1, 2] [2, 3, 1] (by decide)⟩

/-- C2, evaluated on the code: after `insert(3)`, `insert(1)`, `insert(2)` on
the empty tree the root is the vertex `1` with no left child and a right
subtree of height 1, so the heights of its children differ by 2.  The test
`getWeight(current->left)` in `balance` answers `BALANCED` for the left child
`1` (difference `-1`), so the single right rotation is taken where the
left-right case needs the double rotation. -/
theorem build_3_1_2_unbalanced :
    (build [3, 1, 2] : Option (AVL Nat)) =
      some ⟨Vertex.node 2 Vertex.null 1
        (Vertex.node 1 (Vertex.node 0 Vertex.null 2 Vertex.null) 3 Vertex.null),
        Vertex.null, 3⟩ ∧
    Vertex.isBalanced (Vertex.node 2 Vertex.null 1
        (Vertex.node 1 (Vertex.node 0 Vertex.null 2 Vertex.null) 3 Vertex.null)
        : Vertex Nat) = false ∧
    Vertex.shapeBalanced (Vertex.node 2 Vertex.null 1
        (Vertex.node 1 (Vertex.node 0 Vertex.null 2 Vertex.null) 3 Vertex.null)
        : Vertex Nat) = false := by
  refine ⟨by decide, by decide, by decide⟩

/-- C3: for every list `xs`, the tree built from the empty tree by inserting
the elements of `xs` has a correct stored height at every vertex, and
`getHeight()` returns the true height of the tree; on the empty tree
`isEmpty()` is true and `getHeight()` returns `-1`. -/
theorem heights_correct_of_build (xs : List T) :
    (∃ t, build xs = some t ∧ Vertex.heightCorrect t.root = true ∧
      t.getHeight = some (Vertex.trueHeight t.root)) ∧
    (empty : AVL T).isEmpty = true ∧ (empty : AVL T).getHeight = some (-1) := by
  obtain ⟨t, e1, e2, e3, _⟩ := build_spec xs
  refine ⟨⟨t, e1, e3, ?_⟩, rfl, rfl⟩
  rw [getHeight, Vertex.getHeight_of_wellFormed e2, Vertex.ht_eq_trueHeight e3]

end AVL

/-! ## Removal, lookup and clearing -/

namespace Vertex

variable {T : Type} [LinearOrder T]

/-- Only the parity of the value returned by `rand()` is consulted. -/
theorem remove_rnd_mod (target : T) (rnd : Nat) (t : Vertex T) (n : Int) :
    remove target rnd t n = remove target (rnd % 2) t n := by
  induction t generalizing n with
  | null => rfl
  | dangling => rfl
  | node h l d r ihl ihr =>
    rw [remove, remove, ihl, ihr, Nat.mod_mod]

/-- A `remove` whose target equals no stored value returns, leaves the counter
alone and keeps the in-order sequence. -/
theorem remove_absent (target : T) (rnd : Nat) (t : Vertex T)
    (hw : wellFormed t = true) (ha : target ∉ toList t) (n : Int) :
    ∃ t2, remove target rnd t n = some (t2, n) ∧ wellFormed t2 = true ∧
      toList t2 = toList t ∧ numNodes t2 = numNodes t := by
  induction t generalizing n with
  | dangling => simp [wellFormed] at hw
  | null => exact ⟨null, rfl, rfl, rfl, rfl⟩
  | node h l d r ihl ihr =>
    obtain ⟨h0, hl, hr⟩ := wellFormed_node.mp hw
    simp only [toList, List.mem_append, List.mem_cons, not_or] at ha
    obtain ⟨hal, had, har⟩ := ha
    by_cases hx : target > d
    · obtain ⟨r2, i1, i2, i3, i4⟩ := ihr hr har n
      have gl := ht_ge_of_wellFormed hl
      have gr := ht_ge_of_wellFormed i2
      obtain ⟨t2, e1, e2, e3, e4, _⟩ :=
        balance_spec (1 + Max.max (ht l) (ht r2)) l r2 d (by omega) hl i2
      refine ⟨t2, ?_, e2, ?_, ?_⟩
      · rw [remove, if_neg had, if_pos hx, i1]
        simp only [Option.bind_eq_bind, Option.some_bind]
        rw [updateHeight_node h d hl i2]
        simp only [Option.some_bind, e1]
      · rw [e3, i3]; rfl
      · rw [e4, i4]; rfl
    · obtain ⟨l2, i1, i2, i3, i4⟩ := ihl hl hal n
      have gl := ht_ge_of_wellFormed i2
      have gr := ht_ge_of_wellFormed hr
      obtain ⟨t2, e1, e2, e3, e4, _⟩ :=
        balance_spec (1 + Max.max (ht l2) (ht r)) l2 r d (by omega) i2 hr
      refine ⟨t2, ?_, e2, ?_, ?_⟩
      · rw [remove, if_neg had, if_neg hx, i1]
        simp only [Option.bind_eq_bind, Option.some_bind]
        rw [updateHeight_node h d i2 hr]
        simp only [Option.some_bind, e1]
      · rw [e3, i3]; rfl
      · rw [e4, i4]; rfl

/-- On a subtree whose in-order sequence is non-decreasing, the recursive
`find` returns a vertex exactly when the target is stored, and that vertex
holds the target. -/
theorem find_spec (target : T) (t : Vertex T) (hw : wellFormed t = true)
    (hs : (toList t).Sorted (· ≤ ·)) :
    ∃ f, find t target = some f ∧ (f ≠ null ↔ target ∈ toList t) ∧
      (f ≠ null → readData f = some target) := by
  induction t with
  | dangling => simp [wellFormed] at hw
  | null => exact ⟨null, rfl, by simp [toList], by simp⟩
  | node h l d r ihl ihr =>
    obtain ⟨h0, hl, hr⟩ := wellFormed_node.mp hw
    simp only [toList] at hs
    have hp := List.pairwise_append.mp hs
    have hpr := List.pairwise_cons.mp hp.2.1
    by_cases he : target = d
    · refine ⟨node h l d r, by rw [find, if_pos he], ?_, ?_⟩
      · simp [toList, he]
      · intro _; rw [he]; rfl
    · by_cases hlt : target < d
      · obtain ⟨f, f1, f2, f3⟩ := ihl hl hp.1
        refine ⟨f, by rw [find, if_neg he, if_pos hlt, f1], ?_, f3⟩
        rw [f2]
        simp only [toList, List.mem_append, List.mem_cons]
        constructor
        · intro hm; exact Or.inl hm
        · rintro (hm | hm | hm)
          · exact hm
          · exact absurd hm he
          · exact absurd (hpr.1 target hm) (not_le.mpr hlt)
      · obtain ⟨f, f1, f2, f3⟩ := ihr hr hpr.2
        refine ⟨f, by rw [find, if_neg he, if_neg hlt, f1], ?_, f3⟩
        rw [f2]
        simp only [toList, List.mem_append, List.mem_cons]
        constructor
        · intro hm; exact Or.inr (Or.inr hm)
        · rintro (hm | hm | hm)
          · have h1 : target ≤ d := hp.2.2 target hm d (List.mem_cons_self d _)
            exact absurd (lt_of_le_of_ne h1 he) hlt
          · exact absurd hm he
          · exact hm

end Vertex

namespace AVL

variable {T : Type} [LinearOrder T]

theorem remove_parity (t : AVL T) (target : T) (rnd : Nat) :
    t.remove target rnd = t.remove target (rnd % 2) := by
  rw [remove, remove, Vertex.remove_rnd_mod]

/-- C5, evaluated on the code: after inserting 5, 3, 8, 2, 4, 7, 9 the call
`remove(5)` meets the two-child case; for either parity of `rand()` it returns
with `size() = 6`, but the vertex whose value was copied into the root has been
freed while its parent still points to it, so the in-order traversal runs into
a deleted vertex instead of yielding `[2, 3, 4, 7, 8, 9]`. -/
theorem remove_two_children_dangling (rnd : Nat) :
    ((build [5, 3, 8, 2, 4, 7, 9] : Option (AVL Nat)).bind displayInOrder
      = some [2, 3, 4, 5, 7, 8, 9]) ∧
    (((build [5, 3, 8, 2, 4, 7, 9] : Option (AVL Nat)).bind
      (fun t => t.remove 5 rnd)).map size = some 6) ∧
    (((build [5, 3, 8, 2, 4, 7, 9] : Option (AVL Nat)).bind
      (fun t => t.remove 5 rnd)).map (fun t => Vertex.wellFormed t.root) = some false) ∧
    (((build [5, 3, 8, 2, 4, 7, 9] : Option (AVL Nat)).bind
      (fun t => t.remove 5 rnd)).bind displayInOrder = none) := by
  simp only [remove_parity _ 5 rnd]
  rcases Nat.mod_two_eq_zero_or_one rnd with h | h <;> rw [h] <;> decide

/-- C6, evaluated on the code: the tree built by inserting 3, 1, 4, 2 is
balanced with correct heights; `remove(4)` deletes a leaf, and the result is
the vertex `1` with no left child and a right subtree of height 1, so the
balance invariant fails at the root.  On the tree built from 2, 1, 3 the call
`remove(2)` frees a child of the root and then reads its height. -/
theorem remove_breaks_balance (rnd : Nat) :
    ((build [3, 1, 4, 2] : Option (AVL Nat)).map
      (fun t => Vertex.isBalanced t.root && Vertex.heightCorrect t.root) = some true) ∧
    ((build [3, 1, 4, 2] : Option (AVL Nat)).bind (fun t => t.remove 4 rnd) =
      some ⟨Vertex.node 2 Vertex.null 1
        (Vertex.node 1 (Vertex.node 0 Vertex.null 2 Vertex.null) 3 Vertex.null),
        Vertex.null, 3⟩) ∧
    (((build [3, 1, 4, 2] : Option (AVL Nat)).bind (fun t => t.remove 4 rnd)).map
      (fun t => Vertex.isBalanced t.root || Vertex.shapeBalanced t.root) = some false) ∧
    ((build [2, 1, 3] : Option (AVL Nat)).bind (fun t => t.remove 2 rnd) = none) := by
  simp only [remove_parity _ _ rnd]
  rcases Nat.mod_two_eq_zero_or_one rnd with h | h <;> rw [h] <;> decide

/-- C7: for every list `xs`, every target that is not an element of `xs` and
every value of `rand()`, `remove(target)` on the tree built from `xs` returns
and leaves `size()` and the in-order sequence unchanged. -/
theorem remove_absent_noop (xs : List T) (target : T) (rnd : Nat) (ha : target ∉ xs) :
    ∃ t t2 out, build xs = some t ∧ t.remove target rnd = some t2 ∧
      t2.size = t.size ∧ t.displayInOrder = some out ∧ t2.displayInOrder = some out := by
  obtain ⟨t, e1, e2, _, _, _, e6, _⟩ := build_spec xs
  have hm : target ∉ Vertex.toList t.root := by
    rw [e6]
    intro hm
    exact ha ((List.perm_insertionSort (· ≤ ·) xs).mem_iff.mp hm)
  obtain ⟨r2, f1, f2, f3, _⟩ := Vertex.remove_absent target rnd t.root e2 hm t.numberOfElements
  refine ⟨t, ⟨r2, t.finder, t.numberOfElements⟩, Vertex.toList t.root, e1, ?_, rfl,
    Vertex.displayInOrder_of_wellFormed e2, ?_⟩
  · simp only [remove, f1, Option.bind_eq_bind, Option.some_bind]
  · rw [displayInOrder, Vertex.displayInOrder_of_wellFormed f2, f3]

/-- Instance of C7: removing the absent value 5 from the tree built from 2, 4, 6. -/
theorem remove_absent_noop_witness :
    5 ∉ [2, 4, 6] ∧
    ∃ t t2 out, build [2, 4, 6] = some t ∧ t.remove 5 0 = some t2 ∧
      t2.size = t.size ∧ t.displayInOrder = some out ∧ t2.displayInOrder = some out :=
  ⟨by decide, remove_absent_noop [2, 4, 6] 5 0 (by decide)⟩

/-- C8: for every list `xs` and every target, `find(target)` on the tree built
from `xs` returns, its result is `true` exactly when `target` is one of the
inserted values, and then `getFoundData()` returns `target`. -/
theorem find_of_build (xs : List T) (target : T) :
    ∃ t b t2, build xs = some t ∧ t.find target = some (b, t2) ∧
      (b = true ↔ target ∈ xs) ∧ (b = true → t2.getFoundData = some target) := by
  obtain ⟨t, e1, e2, _, _, _, e6, _⟩ := build_spec xs
  have hs : (Vertex.toList t.root).Sorted (· ≤ ·) := by
    rw [e6]; exact List.sorted_insertionSort (· ≤ ·) xs
  obtain ⟨f, f1, f2, f3⟩ := Vertex.find_spec target t.root e2 hs
  refine ⟨t, decide (f ≠ Vertex.null), ⟨t.root, f, t.numberOfElements⟩, e1, ?_, ?_, ?_⟩
  · simp only [find, f1, Option.bind_eq_bind, Option.some_bind]
  · rw [decide_eq_true_eq, f2, e6]
    exact (List.perm_insertionSort (· ≤ ·) xs).mem_iff
  · intro hb
    rw [decide_eq_true_eq] at hb
    exact f3 hb

/-- Scenario E, an instance of C8: after inserting 2, 4, 6, `find(4)` is true
and `getFoundData()` is 4, and `find(5)` is false. -/
theorem find_of_build_witness :
    (∃ t b t2, build [2, 4, 6] = some t ∧ t.find 4 = some (b, t2) ∧
      (b = true ↔ 4 ∈ [2, 4, 6]) ∧ (b = true → t2.getFoundData = some 4)) ∧
    ((build [2, 4, 6] : Option (AVL Nat)).bind (fun t => t.find 4)).map Prod.fst
      = some true ∧
    ((build [2, 4, 6] : Option (AVL Nat)).bind (fun t => t.find 4)).bind
      (fun p => p.2.getFoundData) = some 4 ∧
    ((build [2, 4, 6] : Option (AVL Nat)).bind (fun t => t.find 5)).map Prod.fst
      = some false :=
  ⟨find_of_build [2, 4, 6] 4, by decide, by decide, by decide⟩

/-- C9, evaluated on the code: after `insert(1)` and `clear()` the root is
`nullptr`, so `isEmpty()` is true, but `numberOfElements` is not reset and
`size()` still returns 1. -/
theorem clear_keeps_count :
    ((build [1] : Option (AVL Nat)).bind clear =
      some ⟨Vertex.null, Vertex.null, 1⟩) ∧
    (((build [1] : Option (AVL Nat)).bind clear).map isEmpty = some true) ∧
    (((build [1] : Option (AVL Nat)).bind clear).map size = some 1) := by
  decide

/-- C10 fails as stated: after inserting 2, 4, 6, `find(4)` returns true and
caches the vertex 4; the following `find(5)` returns false and leaves `finder`
null, so `getFoundData()` no longer returns 4. -/
theorem failed_find_overwrites_cache :
    (build [2, 4, 6] : Option (AVL Nat)) = some ⟨sampleRoot, Vertex.null, 3⟩ ∧
    ((build [2, 4, 6] : Option (AVL Nat)).bind (fun t => t.find 4)) =
      some (true, ⟨sampleRoot, sampleRoot, 3⟩) ∧
    ((build [2, 4, 6] : Option (AVL Nat)).bind (fun t => t.find 4)).bind
      (fun p => p.2.getFoundData) = some 4 ∧
    (((build [2, 4, 6] : Option (AVL Nat)).bind (fun t => t.find 4)).bind
      (fun p => p.2.find 5)).map Prod.fst = some false ∧
    (((build [2, 4, 6] : Option (AVL Nat)).bind (fun t => t.find 4)).bind
      (fun p => p.2.find 5)).map (fun p => p.2.finder) = some Vertex.null ∧
    (((build [2, 4, 6] : Option (AVL Nat)).bind (fun t => t.find 4)).bind
      (fun p => p.2.find 5)).bind (fun p => p.2.getFoundData) = none := by
  decide

/-- C10 as amended: a `find` that returns false has overwritten the cache with
`nullptr`, whatever an earlier `find` had stored there, so `getFoundData()` has
no defined result; the tree and `size()` are untouched. -/
theorem failed_find_resets_finder (t t2 : AVL T) (b : T)
    (hf : t.find b = some (false, t2)) :
    t2.finder = Vertex.null ∧ t2.getFoundData = none ∧ t2.root = t.root ∧
      t2.size = t.size := by
  simp only [find, Option.bind_eq_bind, Option.bind_eq_some, Option.some.injEq,
    Prod.mk.injEq] at hf
  obtain ⟨f, _, hd, rfl⟩ := hf
  have hn : f = Vertex.null := by simpa using hd
  subst hn
  exact ⟨rfl, rfl, rfl, rfl⟩

/-- Instance of the amended C10 on the tree built from 2, 4, 6 whose cache
points to the vertex 4 after a successful `find(4)`: the failed `find(5)` leaves
the cache null. -/
theorem failed_find_resets_finder_witness :
    (⟨sampleRoot, sampleRoot, 3⟩ : AVL Nat).find 5 =
      some (false, ⟨sampleRoot, Vertex.null, 3⟩) ∧
    ((⟨sampleRoot, Vertex.null, 3⟩ : AVL Nat).finder = Vertex.null ∧
      (⟨sampleRoot, Vertex.null, 3⟩ : AVL Nat).getFoundData = none ∧
      (⟨sampleRoot, Vertex.null, 3⟩ : AVL Nat).root =
        (⟨sampleRoot, sampleRoot, 3⟩ : AVL Nat).root ∧
      (⟨sampleRoot, Vertex.null, 3⟩ : AVL Nat).size =
        (⟨sampleRoot, sampleRoot, 3⟩ : AVL Nat).size) :=
  ⟨by decide, failed_find_resets_finder ⟨sampleRoot, sampleRoot, 3⟩
    ⟨sampleRoot, Vertex.null, 3⟩ 5 (by decide)⟩

end AVL

/-! ## Duplicate policy, search-tree order and the three-value scenarios -/

namespace Vertex

variable {T : Type}

theorem noDangling_of_wellFormed {t : Vertex T} (hw : wellFormed t = true) :
    noDangling t = true := by
  induction t with
  | null => rfl
  | dangling => simp [wellFormed] at hw
  | node h l d r ihl ihr =>
    obtain ⟨_, hl, hr⟩ := wellFormed_node.mp hw
    simp [noDangling, ihl hl, ihr hr]

end Vertex

namespace AVL

variable {T : Type} [LinearOrder T]

theorem weakOrdered_of_sorted (t : Vertex T) (hn : Vertex.noDangling t = true)
    (hs : (Vertex.toList t).Sorted (· ≤ ·)) : weakOrdered t = true := by
  induction t with
  | null => rfl
  | dangling => simp [Vertex.noDangling] at hn
  | node h l d r ihl ihr =>
    simp only [Vertex.noDangling, Bool.and_eq_true] at hn
    simp only [Vertex.toList] at hs
    have hp := List.pairwise_append.mp hs
    have hpr := List.pairwise_cons.mp hp.2.1
    simp only [weakOrdered, Bool.and_eq_true, List.all_eq_true, decide_eq_true_eq]
    exact ⟨⟨⟨fun a ha => hp.2.2 a ha d (List.mem_cons_self d _), fun b hb => hpr.1 b hb⟩,
      ihl hn.1 hp.1⟩, ihr hn.2 hpr.2⟩

theorem strictOrdered_of_sorted (t : Vertex T) (hn : Vertex.noDangling t = true)
    (hs : (Vertex.toList t).Sorted (· < ·)) : strictOrdered t = true := by
  induction t with
  | null => rfl
  | dangling => simp [Vertex.noDangling] at hn
  | node h l d r ihl ihr =>
    simp only [Vertex.noDangling, Bool.and_eq_true] at hn
    simp only [Vertex.toList] at hs
    have hp := List.pairwise_append.mp hs
    have hpr := List.pairwise_cons.mp hp.2.1
    simp only [strictOrdered, Bool.and_eq_true, List.all_eq_true, decide_eq_true_eq]
    exact ⟨⟨⟨fun a ha => hp.2.2 a ha d (List.mem_cons_self d _), fun b hb => hpr.1 b hb⟩,
      ihl hn.1 hp.1⟩, ihr hn.2 hpr.2⟩

/-- C11 fails as stated: inserting 5 into the one-vertex tree that holds 5
gives the vertex 5 with the new 5 as its left child and no right child, not a
vertex whose right child is 5. -/
theorem insert_tie_goes_left_example :
    (build [5, 5] : Option (AVL Nat)) =
      some ⟨Vertex.node 1 (Vertex.node 0 Vertex.null 5 Vertex.null) 5 Vertex.null,
        Vertex.null, 2⟩ ∧
    (build [5, 5] : Option (AVL Nat)) ≠
      some ⟨Vertex.node 1 Vertex.null 5 (Vertex.node 0 Vertex.null 5 Vertex.null),
        Vertex.null, 2⟩ := by
  decide

/-- C11 as amended: during insertion only an entry that compares strictly
greater than the data of a vertex descends into its right subtree; an entry
that compares less or equal descends into the left subtree (ties go left), the
other subtree being left as it is before the rebalance step.  Inserting `d`
into the one-vertex tree holding `d` gives a vertex `d` whose left child is `d`
and whose right child is absent. -/
theorem insert_ties_go_left (entry d : T) (h n : Int) (l r t2 : Vertex T) (n2 : Int) :
    (d < entry → Vertex.insert entry r n = some (t2, n2) →
      Vertex.insert entry (Vertex.node h l d r) n =
        (Vertex.updateHeight (Vertex.node h l d t2)).bind
          (fun c => (Vertex.balance c).bind (fun c2 => some (c2, n2)))) ∧
    (entry ≤ d → Vertex.insert entry l n = some (t2, n2) →
      Vertex.insert entry (Vertex.node h l d r) n =
        (Vertex.updateHeight (Vertex.node h t2 d r)).bind
          (fun c => (Vertex.balance c).bind (fun c2 => some (c2, n2)))) ∧
    build [d, d] =
      some ⟨Vertex.node 1 (Vertex.node 0 Vertex.null d Vertex.null) d Vertex.null,
        Vertex.null, 2⟩ := by
  refine ⟨?_, ?_, ?_⟩
  · intro hlt hi
    rw [Vertex.insert, if_pos hlt, hi]
    rfl
  · intro hle hi
    rw [Vertex.insert, if_neg (not_lt.mpr hle), hi]
    rfl
  · simp [build, insertAll, insert, Vertex.insert, Vertex.updateHeight, Vertex.balance,
      Vertex.getWeight, Vertex.getHeight, Vertex.max, empty]

/-- Instance of the amended C11: the entry 5 meets a vertex holding 5 and goes
into its left subtree; the entry 6 goes into its right subtree. -/
theorem insert_ties_go_left_witness :
    ((5 : Nat) < 6 → Vertex.insert 6 (Vertex.null : Vertex Nat) 1
        = some (Vertex.node 0 Vertex.null 6 Vertex.null, 2) →
      Vertex.insert 6 (Vertex.node 0 Vertex.null 5 Vertex.null) 1 =
        (Vertex.updateHeight (Vertex.node 0 Vertex.null 5
          (Vertex.node 0 Vertex.null 6 Vertex.null))).bind
          (fun c => (Vertex.balance c).bind (fun c2 => some (c2, 2)))) ∧
    ((6 : Nat) ≤ 5 → Vertex.insert 6 (Vertex.null : Vertex Nat) 1
        = some (Vertex.node 0 Vertex.null 6 Vertex.null, 2) →
      Vertex.insert 6 (Vertex.node 0 Vertex.null 5 Vertex.null) 1 =
        (Vertex.updateHeight (Vertex.node 0 (Vertex.node 0 Vertex.null 6 Vertex.null) 5
          Vertex.null)).bind
          (fun c => (Vertex.balance c).bind (fun c2 => some (c2, 2)))) ∧
    build [5, 5] =
      some ⟨Vertex.node 1 (Vertex.node 0 Vertex.null 5 Vertex.null) 5 Vertex.null,
        Vertex.null, 2⟩ :=
  insert_ties_go_left 6 5 0 1 Vertex.null Vertex.null
    (Vertex.node 0 Vertex.null 6 Vertex.null) 2

/-- C12 fails as stated: after `insert(1)`, `insert(1)` the root 1 has the
value 1 in its left subtree, which is not strictly less than 1. -/
theorem duplicate_breaks_strict_order :
    (build [1, 1] : Option (AVL Nat)) =
      some ⟨Vertex.node 1 (Vertex.node 0 Vertex.null 1 Vertex.null) 1 Vertex.null,
        Vertex.null, 2⟩ ∧
    (build [1, 1] : Option (AVL Nat)).map (fun t => strictOrdered t.root) = some false := by
  decide

/-- C12 as amended: for every list `xs`, every vertex of the tree built by
inserting the elements of `xs` satisfies the search-tree order with ties
allowed (left subtree less or equal, right subtree greater or equal); the
order is strict at every vertex when no value is repeated in `xs`. -/
theorem order_of_build (xs : List T) :
    ∃ t, build xs = some t ∧ weakOrdered t.root = true ∧
      (xs.Nodup → strictOrdered t.root = true) := by
  obtain ⟨t, e1, e2, _, _, _, e6, _⟩ := build_spec xs
  have hn := Vertex.noDangling_of_wellFormed e2
  have hs : (Vertex.toList t.root).Sorted (· ≤ ·) := by
    rw [e6]; exact List.sorted_insertionSort (· ≤ ·) xs
  refine ⟨t, e1, weakOrdered_of_sorted t.root hn hs, ?_⟩
  intro hd
  have hnd : (Vertex.toList t.root).Nodup := by
    rw [e6]; exact (List.perm_insertionSort (· ≤ ·) xs).nodup_iff.mpr hd
  exact strictOrdered_of_sorted t.root hn (hs.lt_of_le hnd)

/-- Instance of the amended C12 on the list 2, 1, 3, which has no repeated
value. -/
theorem order_of_build_witness :
    ∃ t : AVL Nat, build [2, 1, 3] = some t ∧ weakOrdered t.root = true ∧
      ([2, 1, 3].Nodup → strictOrdered t.root = true) :=
  order_of_build [2, 1, 3]

/-- C13, evaluated on the code for the values 1, 2, 3: the orders 1,2,3 and
3,2,1 (one rotation) and 2,1,3 and 2,3,1 (no rotation) give root 2 with the
leaves 1 and 3 and stored height 1; the orders 1,3,2 and 3,1,2 give a chain of
height 2, because `balance` does a single rotation where the right-left and
left-right cases need the double rotation. -/
theorem three_values_all_orders :
    (build [1, 2, 3] : Option (AVL Nat)) =
      some ⟨Vertex.node 1 (Vertex.node 0 Vertex.null 1 Vertex.null) 2
        (Vertex.node 0 Vertex.null 3 Vertex.null), Vertex.null, 3⟩ ∧
    (build [3, 2, 1] : Option (AVL Nat)) = build [1, 2, 3] ∧
    (build [2, 1, 3] : Option (AVL Nat)) = build [1, 2, 3] ∧
    (build [2, 3, 1] : Option (AVL Nat)) = build [1, 2, 3] ∧
    (build [1, 3, 2] : Option (AVL Nat)) =
      some ⟨Vertex.node 2 (Vertex.node 1 Vertex.null 1
        (Vertex.node 0 Vertex.null 2 Vertex.null)) 3 Vertex.null, Vertex.null, 3⟩ ∧
    (build [3, 1, 2] : Option (AVL Nat)) =
      some ⟨Vertex.node 2 Vertex.null 1
        (Vertex.node 1 (Vertex.node 0 Vertex.null 2 Vertex.null) 3 Vertex.null),
        Vertex.null, 3⟩ := by
  decide

end AVL

/-! ## Pre-order and post-order display, extremal values, height bound -/

namespace Vertex

variable {T : Type}

/-- The pointer `getMin` returns on a live subtree points to the vertex that
holds the first value of the in-order sequence. -/
theorem getMin_spec (h : Int) (l r : Vertex T) (d : T)
    (hn : noDangling (node h l d r) = true) :
    ∃ v m rest, getMin (node h l d r) = some v ∧ readData v = some m ∧
      toList (node h l d r) = m :: rest := by
  induction l generalizing h d r with
  | null => exact ⟨node h null d r, d, toList r, rfl, rfl, rfl⟩
  | dangling => simp [noDangling] at hn
  | node lh ll ld lr ihl _ =>
    simp only [noDangling, Bool.and_eq_true] at hn
    have hl : noDangling (node lh ll ld lr) = true := by
      simp only [noDangling, Bool.and_eq_true]; exact hn.1
    obtain ⟨v, m, rest, e1, e2, e3⟩ := ihl lh lr ld hl
    refine ⟨v, m, rest ++ d :: toList r, ?_, e2, ?_⟩
    · rw [getMin] <;> first | exact e1 | (intro hc; cases hc)
    · rw [toList, e3]; rfl

/-- The pointer `getMax` returns on a live subtree points to the vertex that
holds the last value of the in-order sequence. -/
theorem getMax_spec (h : Int) (l r : Vertex T) (d : T)
    (hn : noDangling (node h l d r) = true) :
    ∃ v m front, getMax (node h l d r) = some v ∧ readData v = some m ∧
      toList (node h l d r) = front ++ [m] := by
  induction r generalizing h d l with
  | null => exact ⟨node h l d null, d, toList l, rfl, rfl, rfl⟩
  | dangling => simp [noDangling] at hn
  | node rh rl rd rr _ ihr =>
    simp only [noDangling, Bool.and_eq_true] at hn
    have hr : noDangling (node rh rl rd rr) = true := by
      simp only [noDangling, Bool.and_eq_true]; exact hn.2
    obtain ⟨v, m, front, e1, e2, e3⟩ := ihr rh rl rd hr
    refine ⟨v, m, toList l ++ d :: front, ?_, e2, ?_⟩
    · rw [getMax] <;> first | exact e1 | (intro hc; cases hc)
    · rw [toList, e3]; simp

end Vertex

namespace AVL

variable {T : Type} [LinearOrder T]

/-- C15, evaluated on the code: on the tree built from 4, 2, 6, 1, 3 (root 4,
left child 2 with the leaves 1 and 3, right child 6) `displayPreOrder` writes
4, 1, 2, 3, 6 where the pre-order is 4, 2, 1, 3, 6, and `displayPostOrder`
writes 1, 2, 3, 6, 4 where the post-order is 1, 3, 2, 6, 4: below the root both
functions recurse with `displayInOrder`. -/
theorem display_pre_post_order_mismatch :
    (build [4, 2, 6, 1, 3] : Option (AVL Nat)) =
      some ⟨Vertex.node 2 (Vertex.node 1 (Vertex.node 0 Vertex.null 1 Vertex.null) 2
        (Vertex.node 0 Vertex.null 3 Vertex.null)) 4
        (Vertex.node 0 Vertex.null 6 Vertex.null), Vertex.null, 5⟩ ∧
    (build [4, 2, 6, 1, 3] : Option (AVL Nat)).bind displayPreOrder
      = some [4, 1, 2, 3, 6] ∧
    (build [4, 2, 6, 1, 3] : Option (AVL Nat)).map (fun t => Vertex.preOrder t.root)
      = some [4, 2, 1, 3, 6] ∧
    (build [4, 2, 6, 1, 3] : Option (AVL Nat)).bind displayPostOrder
      = some [1, 2, 3, 6, 4] ∧
    (build [4, 2, 6, 1, 3] : Option (AVL Nat)).map (fun t => Vertex.postOrder t.root)
      = some [1, 3, 2, 6, 4] := by
  decide

/-- C18: for every non-empty list `xs`, on the tree built by inserting the
elements of `xs` the calls `getMin()` and `getMax()` return the first and the
last value of the in-order traversal, which are the least and the greatest of
the inserted values. -/
theorem getMin_getMax_of_build (xs : List T) (hne : xs ≠ []) :
    ∃ t m M rest front, build xs = some t ∧ t.getMin = some m ∧ t.getMax = some M ∧
      t.displayInOrder = some (m :: rest) ∧ t.displayInOrder = some (front ++ [M]) ∧
      m ∈ xs ∧ M ∈ xs ∧ ∀ x ∈ xs, m ≤ x ∧ x ≤ M := by
  obtain ⟨t, e1, e2, _, _, e5, e6, _⟩ := build_spec xs
  have hn := Vertex.noDangling_of_wellFormed e2
  have hs : (Vertex.toList t.root).Sorted (· ≤ ·) := by
    rw [e6]; exact List.sorted_insertionSort (· ≤ ·) xs
  have hmem : ∀ x, x ∈ Vertex.toList t.root ↔ x ∈ xs := by
    intro x; rw [e6]; exact (List.perm_insertionSort (· ≤ ·) xs).mem_iff
  obtain ⟨h, l, d, r, hroot⟩ : ∃ h l d r, t.root = Vertex.node h l d r := by
    cases hr : t.root with
    | null =>
      rw [hr] at e5
      have : xs.length = 0 := by simpa [Vertex.numNodes] using e5.symm
      exact absurd (List.length_eq_zero.mp this) hne
    | dangling => rw [hr] at hn; simp [Vertex.noDangling] at hn
    | node h l d r => exact ⟨h, l, d, r, rfl⟩
  rw [hroot] at hn
  obtain ⟨v, m, rest, a1, a2, a3⟩ := Vertex.getMin_spec h l r d hn
  obtain ⟨w, M, front, b1, b2, b3⟩ := Vertex.getMax_spec h l r d hn
  rw [← hroot] at a1 a3 b1 b3
  have hd := Vertex.displayInOrder_of_wellFormed e2
  refine ⟨t, m, M, rest, front, e1, ?_, ?_, ?_, ?_, ?_, ?_, ?_⟩
  · rw [getMin, a1]; exact a2
  · rw [getMax, b1]; exact b2
  · rw [displayInOrder, hd, a3]
  · rw [displayInOrder, hd, b3]
  · exact (hmem m).mp (by rw [a3]; exact List.mem_cons_self m rest)
  · exact (hmem M).mp (by rw [b3]; simp)
  · intro x hx
    have hx2 := (hmem x).mpr hx
    constructor
    · rw [a3] at hs hx2
      rcases List.mem_cons.mp hx2 with hx3 | hx3
      · rw [hx3]
      · exact (List.pairwise_cons.mp hs).1 x hx3
    · rw [b3] at hs hx2
      rcases List.mem_append.mp hx2 with hx3 | hx3
      · exact (List.pairwise_append.mp hs).2.2 x hx3 M (List.mem_singleton_self M)
      · rw [List.mem_singleton.mp hx3]

/-- Instance of C18 on the list 5, 3, 8. -/
theorem getMin_getMax_of_build_witness :
    [5, 3, 8] ≠ [] ∧
    ∃ (t : AVL Nat) (m M : Nat) (rest front : List Nat), build [5, 3, 8] = some t ∧
      t.getMin = some m ∧ t.getMax = some M ∧
      t.displayInOrder = some (m :: rest) ∧ t.displayInOrder = some (front ++ [M]) ∧
      m ∈ [5, 3, 8] ∧ M ∈ [5, 3, 8] ∧ ∀ x ∈ [5, 3, 8], m ≤ x ∧ x ≤ M :=
  ⟨by decide, getMin_getMax_of_build [5, 3, 8] (by decide)⟩

/-- C19, evaluated on the code: after `insert(3)`, `insert(1)`, `insert(2)` the
tree has `size() = 3` and `getHeight() = 2`, while a tree of height 2 that
meets the AVL bound has at least `N(2) = 4` vertices. -/
theorem height_bound_fails :
    (build [3, 1, 2] : Option (AVL Nat)).map size = some 3 ∧
    (build [3, 1, 2] : Option (AVL Nat)).bind getHeight = some 2 ∧
    minNodes (2 + 1) = 4 ∧
    ¬ ((3 : Nat) ≥ minNodes (2 + 1)) := by
  decide

end AVL

/-! ## Iterator and copy construction -/

namespace Vertex

variable {T : Type}

theorem length_toList (t : Vertex T) : (toList t).length = numNodes t := by
  induction t with
  | null => rfl
  | dangling => rfl
  | node h l d r ihl ihr =>
    simp only [toList, numNodes, List.length_append, List.length_cons, ihl, ihr]
    omega

theorem displayInOrder_of_noDangling {t : Vertex T} (hn : noDangling t = true) :
    displayInOrder t = some (toList t) := by
  induction t with
  | null => rfl
  | dangling => simp [noDangling] at hn
  | node h l d r ihl ihr =>
    simp only [noDangling, Bool.and_eq_true] at hn
    simp [displayInOrder, ihl hn.1, ihr hn.2, toList]

end Vertex

namespace AVL.Iterator

variable {T : Type}

theorem pushLeft_spec (c : Vertex T) (ps : List (Vertex T))
    (hc : Vertex.noDangling c = true) (hp : stackOk ps = true) :
    ∃ ps2, pushLeft c ps = some ps2 ∧ stackOk ps2 = true ∧
      stackValues ps2 = Vertex.toList c ++ stackValues ps := by
  induction c generalizing ps with
  | null => exact ⟨ps, rfl, hp, rfl⟩
  | dangling => simp [Vertex.noDangling] at hc
  | node h l d r ihl _ =>
    simp only [Vertex.noDangling, Bool.and_eq_true] at hc
    have hs : stackOk (Vertex.node h l d r :: ps) = true := by
      simp [stackOk, hc.2, hp]
    obtain ⟨ps2, e1, e2, e3⟩ := ihl (Vertex.node h l d r :: ps) hc.1 hs
    refine ⟨ps2, by rw [pushLeft]; exact e1, e2, ?_⟩
    rw [e3]
    simp [stackValues, frameValues, Vertex.toList]

/-- One call of `next()` on an iterator that still has values to deliver
returns the first of them and leaves the others pending. -/
theorem next_spec (it : Iterator T) (hc : Vertex.noDangling it.current = true)
    (hp : stackOk it.parents = true) (x : T) (rest : List T)
    (hv : pending it = x :: rest) :
    ∃ it2, next it = some (x, it2) ∧ Vertex.noDangling it2.current = true ∧
      stackOk it2.parents = true ∧ pending it2 = rest := by
  obtain ⟨ps2, e1, e2, e3⟩ := pushLeft_spec it.current it.parents hc hp
  rw [← pending, hv] at e3
  cases ps2 with
  | nil => simp [stackValues] at e3
  | cons top rs =>
    cases top with
    | null => simp [stackOk] at e2
    | dangling => simp [stackOk] at e2
    | node h l d r =>
      simp only [stackOk, Bool.and_eq_true] at e2
      simp only [stackValues, frameValues, List.cons_append, List.cons.injEq] at e3
      refine ⟨⟨rs, r⟩, ?_, e2.1, e2.2, ?_⟩
      · simp only [next, e1, Option.bind_eq_bind, Option.some_bind, e3.1]
      · rw [pending]; exact e3.2

theorem hasNext_iff (it : Iterator T) (hc : Vertex.noDangling it.current = true)
    (hp : stackOk it.parents = true) : hasNext it = true ↔ pending it ≠ [] := by
  obtain ⟨ps, c⟩ := it
  cases c with
  | dangling => simp [Vertex.noDangling] at hc
  | node h l d r => simp [hasNext, pending, Vertex.toList]
  | null =>
    cases ps with
    | nil => simp [hasNext, pending, Vertex.toList, stackValues]
    | cons v vs =>
      cases v with
      | null => simp [stackOk] at hp
      | dangling => simp [stackOk] at hp
      | node h l d r => simp [hasNext, pending, Vertex.toList, stackValues, frameValues]

theorem nextN_spec (k : Nat) (it : Iterator T) (hc : Vertex.noDangling it.current = true)
    (hp : stackOk it.parents = true) (hk : k ≤ (pending it).length) :
    ∃ it2, nextN k it = some ((pending it).take k, it2) ∧
      Vertex.noDangling it2.current = true ∧ stackOk it2.parents = true ∧
      pending it2 = (pending it).drop k := by
  induction k generalizing it with
  | zero => exact ⟨it, by simp [nextN], hc, hp, by simp⟩
  | succ k ih =>
    cases hv : pending it with
    | nil => rw [hv] at hk; simp at hk
    | cons x rest =>
      rw [hv] at hk
      obtain ⟨it2, e1, e2, e3, e4⟩ := next_spec it hc hp x rest hv
      have hk2 : k ≤ (pending it2).length := by
        rw [e4]; simpa using hk
      obtain ⟨it3, f1, f2, f3, f4⟩ := ih it2 e2 e3 hk2
      refine ⟨it3, ?_, f2, f3, ?_⟩
      · simp only [nextN, e1, f1, Option.bind_eq_bind, Option.some_bind, e4,
          List.take_succ_cons]
      · rw [f4, e4]; simp

theorem drain_spec (fuel : Nat) (it : Iterator T)
    (hc : Vertex.noDangling it.current = true) (hp : stackOk it.parents = true)
    (hf : (pending it).length ≤ fuel) : drain fuel it = some (pending it) := by
  induction fuel generalizing it with
  | zero =>
    have he : pending it = [] := List.length_eq_zero.mp (Nat.le_zero.mp hf)
    have hh : hasNext it = false := by
      rw [← Bool.not_eq_true, hasNext_iff it hc hp, he]; simp
    simp [drain, hh, he]
  | succ fuel ih =>
    cases hv : pending it with
    | nil =>
      have hh : hasNext it = false := by
        rw [← Bool.not_eq_true, hasNext_iff it hc hp, hv]; simp
      simp [drain, hh]
    | cons x rest =>
      have hh : hasNext it = true := by
        rw [hasNext_iff it hc hp, hv]; simp
      obtain ⟨it2, e1, e2, e3, e4⟩ := next_spec it hc hp x rest hv
      have hf2 : (pending it2).length ≤ fuel := by
        rw [hv] at hf; rw [e4]; simpa using hf
      simp only [drain, hh, if_true, e1, Option.bind_eq_bind, Option.some_bind,
        ih it2 e2 e3 hf2, e4]

theorem pending_begin (t : AVL T) : pending t.begin = Vertex.toList t.root := by
  simp [pending, AVL.begin, stackValues]

end AVL.Iterator

namespace AVL

variable {T : Type} [LinearOrder T]

theorem copyLoop_spec (fuel : Nat) (it : Iterator T) (t : AVL T)
    (hc : Vertex.noDangling it.current = true) (hp : Iterator.stackOk it.parents = true)
    (hw : Vertex.wellFormed t.root = true) (hf : (Iterator.pending it).length ≤ fuel) :
    copyLoop fuel it t = insertAll (Iterator.pending it) t := by
  induction fuel generalizing it t with
  | zero =>
    have he : Iterator.pending it = [] := List.length_eq_zero.mp (Nat.le_zero.mp hf)
    have hh : it.hasNext = false := by
      rw [← Bool.not_eq_true, Iterator.hasNext_iff it hc hp, he]; simp
    simp [copyLoop, hh, he, insertAll]
  | succ fuel ih =>
    cases hv : Iterator.pending it with
    | nil =>
      have hh : it.hasNext = false := by
        rw [← Bool.not_eq_true, Iterator.hasNext_iff it hc hp, hv]; simp
      simp [copyLoop, hh, insertAll]
    | cons x rest =>
      have hh : it.hasNext = true := by
        rw [Iterator.hasNext_iff it hc hp, hv]; simp
      obtain ⟨it2, e1, e2, e3, e4⟩ := Iterator.next_spec it hc hp x rest hv
      obtain ⟨t2, i1, i2, _⟩ := insert_root_spec t x hw
      have hf2 : (Iterator.pending it2).length ≤ fuel := by
        rw [hv] at hf; rw [e4]; simpa using hf
      simp only [copyLoop, hh, if_true, e1, i1, Option.bind_eq_bind, Option.some_bind,
        ih it2 t2 e2 e3 i2 hf2, e4, insertAll]

/-- What the copy constructor builds from a tree built by inserts: the same
in-order sequence, and a counter that starts from whatever the member held. -/
theorem copy_spec (xs : List T) (garbage : Int) (fuel : Nat) (hf : xs.length ≤ fuel) :
    ∃ s c, build xs = some s ∧ copy fuel garbage s = some c ∧
      Vertex.wellFormed s.root = true ∧ Vertex.wellFormed c.root = true ∧
      Vertex.toList c.root = Vertex.toList s.root ∧
      c.numberOfElements = garbage + xs.length ∧
      Vertex.numNodes c.root = xs.length ∧ s.numberOfElements = xs.length := by
  obtain ⟨s, e1, e2, _, e4, e5, e6, _⟩ := build_spec xs
  have hn := Vertex.noDangling_of_wellFormed e2
  have hlen : (Vertex.toList s.root).length = xs.length := by
    rw [Vertex.length_toList, e5]
  have hs : (Vertex.toList s.root).Sorted (· ≤ ·) := by
    rw [e6]; exact List.sorted_insertionSort (· ≤ ·) xs
  have hcopy : copy fuel garbage s =
      insertAll (Vertex.toList s.root) ⟨Vertex.null, Vertex.null, garbage⟩ := by
    have hb : Iterator.assign ⟨[], Vertex.null⟩ s.begin = s.begin := rfl
    rw [copy, hb, copyLoop_spec fuel s.begin ⟨Vertex.null, Vertex.null, garbage⟩ hn rfl rfl
      (by rw [Iterator.pending_begin, hlen]; exact hf), Iterator.pending_begin]
  obtain ⟨c, f1, f2, f3, f4, _, f6, f7, _⟩ :=
    insertAll_spec (Vertex.toList s.root) (⟨Vertex.null, Vertex.null, garbage⟩ : AVL T) rfl
  refine ⟨s, c, e1, hcopy.trans f1, e2, f2, ?_, ?_, ?_, e4⟩
  · have hp : (Vertex.toList c.root).Perm (Vertex.toList s.root) := by
      simpa [Vertex.toList] using f7
    exact List.eq_of_perm_of_sorted hp (f6 (by simp [Vertex.toList])) hs
  · rw [f3, hlen]
  · rw [f4, hlen]; simp [Vertex.numNodes]

end AVL

namespace AVL

variable {T : Type} [LinearOrder T]

/-- C14: on every tree in which no deleted vertex is reachable, the iterator
`begin()` delivers the in-order sequence: the first `k` calls of `next()`
return its first `k` values, `hasNext()` is true after fewer calls than there
are vertices and false after exactly that many, and the loop
`while(hasNext()) next()` ends with all values returned; on a tree built by
inserts the values come in ascending order. -/
theorem iterator_inorder (t : AVL T) (xs : List T)
    (hn : Vertex.noDangling t.root = true) :
    (∃ out, t.displayInOrder = some out ∧ out.length = Vertex.numNodes t.root ∧
      (∀ k, k ≤ out.length → ∃ it2, Iterator.nextN k t.begin = some (out.take k, it2) ∧
        (it2.hasNext = true ↔ k < out.length)) ∧
      (∀ fuel, out.length ≤ fuel → Iterator.drain fuel t.begin = some out)) ∧
    (∃ s, build xs = some s ∧
      Iterator.drain xs.length s.begin = some (xs.insertionSort (· ≤ ·))) := by
  constructor
  · refine ⟨Vertex.toList t.root, Vertex.displayInOrder_of_noDangling hn,
      Vertex.length_toList t.root, ?_, ?_⟩
    · intro k hk
      obtain ⟨it2, e1, e2, e3, e4⟩ := Iterator.nextN_spec k t.begin hn rfl
        (by rw [Iterator.pending_begin]; exact hk)
      rw [Iterator.pending_begin] at e1 e4
      refine ⟨it2, e1, ?_⟩
      rw [Iterator.hasNext_iff it2 e2 e3, e4, Ne, List.drop_eq_nil_iff]
      omega
    · intro fuel hf
      have := Iterator.drain_spec fuel t.begin hn rfl
        (by rw [Iterator.pending_begin]; exact hf)
      rw [Iterator.pending_begin] at this
      exact this
  · obtain ⟨s, e1, e2, _, _, e5, e6, _⟩ := build_spec xs
    have hs := Vertex.noDangling_of_wellFormed e2
    refine ⟨s, e1, ?_⟩
    have := Iterator.drain_spec xs.length s.begin hs rfl
      (by rw [Iterator.pending_begin, Vertex.length_toList, e5])
    rw [Iterator.pending_begin, e6] at this
    exact this

/-- Instance of C14 on the tree with root 4 and leaves 2 and 6, and on the
tree built from 6, 2, 4. -/
theorem iterator_inorder_witness :
    Vertex.noDangling sampleRoot = true ∧
    ((∃ out, (⟨sampleRoot, Vertex.null, 3⟩ : AVL Nat).displayInOrder = some out ∧
      out.length = Vertex.numNodes sampleRoot ∧
      (∀ k, k ≤ out.length → ∃ it2,
        Iterator.nextN k (⟨sampleRoot, Vertex.null, 3⟩ : AVL Nat).begin
          = some (out.take k, it2) ∧
        (it2.hasNext = true ↔ k < out.length)) ∧
      (∀ fuel, out.length ≤ fuel →
        Iterator.drain fuel (⟨sampleRoot, Vertex.null, 3⟩ : AVL Nat).begin = some out)) ∧
    (∃ s, build [6, 2, 4] = some s ∧
      Iterator.drain [6, 2, 4].length s.begin = some ([6, 2, 4].insertionSort (· ≤ ·)))) :=
  ⟨by decide, iterator_inorder ⟨sampleRoot, Vertex.null, 3⟩ [6, 2, 4] (by decide)⟩

/-- C16: for every list `xs`, every value the uninitialised counter may hold
and every bound of at least `xs.length` rounds, copy construction from the
tree built by inserting `xs` returns a tree whose in-order traversal equals
that of the source. -/
theorem copy_same_inorder (xs : List T) (garbage : Int) (fuel : Nat)
    (hf : xs.length ≤ fuel) :
    ∃ s c out, build xs = some s ∧ copy fuel garbage s = some c ∧
      s.displayInOrder = some out ∧ c.displayInOrder = some out := by
  obtain ⟨s, c, e1, e2, e3, e4, e5, _⟩ := copy_spec xs garbage fuel hf
  refine ⟨s, c, Vertex.toList s.root, e1, e2, Vertex.displayInOrder_of_wellFormed e3, ?_⟩
  rw [displayInOrder, Vertex.displayInOrder_of_wellFormed e4, e5]

/-- Instance of C16 on the source built from 5, 3, 8, 2, 4, 7, 9. -/
theorem copy_same_inorder_witness :
    [5, 3, 8, 2, 4, 7, 9].length ≤ 7 ∧
    ∃ (s c : AVL Nat) (out : List Nat), build [5, 3, 8, 2, 4, 7, 9] = some s ∧
      copy 7 0 s = some c ∧ s.displayInOrder = some out ∧ c.displayInOrder = some out :=
  ⟨by decide, copy_same_inorder [5, 3, 8, 2, 4, 7, 9] 0 7 (by decide)⟩

/-- C17, evaluated on the code: the copy constructor never assigns
`numberOfElements`, so for every source built from a list `xs` and every value
`garbage` the member holds when the constructor starts, `size()` of the copy is
`garbage + xs.length` while the copy has `xs.length` vertices and the source
has `size() = xs.length`; with the source built by `insert(1)` and the value 7
in the member, `size()` of the copy is 8. -/
theorem copy_size_uninitialised (xs : List T) (garbage : Int) :
    (∃ s c, build xs = some s ∧ copy xs.length garbage s = some c ∧
      c.size = garbage + xs.length ∧ Vertex.numNodes c.root = xs.length ∧
      s.size = xs.length) ∧
    ((build [1] : Option (AVL Nat)).bind (copy 1 7) =
      some ⟨Vertex.node 0 Vertex.null 1 Vertex.null, Vertex.null, 8⟩) := by
  constructor
  · obtain ⟨s, c, e1, e2, _, _, _, e6, e7, e8⟩ := copy_spec xs garbage xs.length le_rfl
    exact ⟨s, c, e1, e2, e6, e7, e8⟩
  · decide

end AVL

namespace Vertex

variable {T : Type}

end Vertex

/-! ## Balance and insertion with the `int` arithmetic made explicit -/

theorem wrapInt_of_range (x : Int) (h1 : -2147483648 ≤ x) (h2 : x ≤ 2147483647) :
    wrapInt x = x := by
  unfold wrapInt
  omega

namespace Vertex

variable {T : Type}

theorem ne_dangling_of_wellFormed {t : Vertex T} (hw : wellFormed t = true) :
    t ≠ dangling := by
  intro h
  rw [h] at hw
  simp [wellFormed] at hw

theorem getHeight_of_ne_dangling {t : Vertex T} (hn : t ≠ dangling) :
    getHeight t = some (ht t) := by
  cases t with
  | null => rfl
  | node h l d r => rfl
  | dangling => exact absurd rfl hn

theorem updateHeight32_node {l r : Vertex T} (h : Int) (d : T)
    (hl : l ≠ dangling) (hr : r ≠ dangling) :
    updateHeight32 (node h l d r) =
      some (node (wrapInt (1 + Max.max (ht l) (ht r))) l d r) := by
  simp [updateHeight32, getHeight_of_ne_dangling hl, getHeight_of_ne_dangling hr, max_def]

theorem leftRotation32_defined {l rl rr : Vertex T} (h rh : Int) (d rd : T)
    (hl : l ≠ dangling) (hrl : rl ≠ dangling) (hrr : rr ≠ dangling) :
    ∃ a b, leftRotation32 (node h l d (node rh rl rd rr)) =
      some (node a (node b l d rl) rd rr) := by
  refine ⟨wrapInt (1 + Max.max (wrapInt (1 + Max.max (ht l) (ht rl))) (ht rr)),
    wrapInt (1 + Max.max (ht l) (ht rl)), ?_⟩
  rw [leftRotation32, updateHeight32_node h d hl hrl]
  simp only [Option.bind_eq_bind, Option.some_bind]
  rw [updateHeight32_node rh rd (by simp) hrr, ht_node]

theorem rightRotation32_defined {ll lr r : Vertex T} (h lh : Int) (d ld : T)
    (hll : ll ≠ dangling) (hlr : lr ≠ dangling) (hr : r ≠ dangling) :
    ∃ a b, rightRotation32 (node h (node lh ll ld lr) d r) =
      some (node a ll ld (node b lr d r)) := by
  refine ⟨wrapInt (1 + Max.max (ht ll) (wrapInt (1 + Max.max (ht lr) (ht r)))),
    wrapInt (1 + Max.max (ht lr) (ht r)), ?_⟩
  rw [rightRotation32, updateHeight32_node h d hlr hr]
  simp only [Option.bind_eq_bind, Option.some_bind]
  rw [updateHeight32_node lh ld hll (by simp), ht_node]

theorem heightsInRange_node {h : Int} {l r : Vertex T} {d : T} :
    heightsInRange (node h l d r) = true ↔
      (0 ≤ h ∧ h < INT_MAX) ∧ heightsInRange l = true ∧ heightsInRange r = true := by
  simp [heightsInRange, and_assoc]

theorem wellFormed_of_heightsInRange {t : Vertex T} (hr : heightsInRange t = true) :
    wellFormed t = true := by
  induction t with
  | null => rfl
  | dangling => simp [heightsInRange] at hr
  | node h l d r ihl ihr =>
    obtain ⟨h1, h2, h3⟩ := heightsInRange_node.mp hr
    exact wellFormed_node.mpr ⟨h1.1, ihl h2, ihr h3⟩

theorem ht_lt_of_heightsInRange {t : Vertex T} (hr : heightsInRange t = true) :
    ht t < INT_MAX := by
  cases t with
  | null => simp [ht, INT_MAX]
  | dangling => simp [heightsInRange] at hr
  | node h l d r => exact (heightsInRange_node.mp hr).1.2

theorem getWeight32_of_bounds {l r : Vertex T} (h : Int) (d : T)
    (wl : wellFormed l = true) (wr : wellFormed r = true)
    (b1 : ht l < INT_MAX) (b2 : ht r < INT_MAX) :
    getWeight32 (node h l d r) = some (classify (ht l - ht r)) := by
  have g1 := ht_ge_of_wellFormed wl
  have g2 := ht_ge_of_wellFormed wr
  have hm : INT_MAX = 2147483647 := rfl
  have hwrap : wrapInt (ht l - ht r) = ht l - ht r :=
    wrapInt_of_range _ (by omega) (by omega)
  simp only [getWeight32, getHeight_of_wellFormed wl, getHeight_of_wellFormed wr,
    Option.bind_eq_bind, Option.some_bind, hwrap, classify]
  split_ifs <;> rfl

theorem getWeight32_node {l r : Vertex T} (h : Int) (d : T)
    (hl : heightsInRange l = true) (hr : heightsInRange r = true) :
    getWeight32 (node h l d r) = some (classify (ht l - ht r)) :=
  getWeight32_of_bounds h d (wellFormed_of_heightsInRange hl) (wellFormed_of_heightsInRange hr)
    (ht_lt_of_heightsInRange hl) (ht_lt_of_heightsInRange hr)

/-- C20 fails as stated: the vertex 2 has the left child 1 with stored height
`INT_MAX` (all stored heights are at least 0) and no right child.  The
subtraction `INT_MAX - (-1)` wraps, `getWeight` answers `RIGHT_HEAVY`, and
`balance` calls `leftRotation` on the vertex, whose right child is absent. -/
theorem balance32_overflow_example :
    wellFormed (node 2147483647 null 1 null : Vertex Nat) = true ∧
    getWeight32 (node 0 (node 2147483647 null 1 null) 2 null : Vertex Nat)
      = some WeightStatus.RIGHT_HEAVY ∧
    leftRotation32 (node 0 (node 2147483647 null 1 null) 2 null : Vertex Nat) = none ∧
    balance32 (node 0 (node 2147483647 null 1 null) 2 null : Vertex Nat) = none := by
  decide

/-- C20 as amended: on a vertex whose two subtrees reach no deleted vertex and
carry stored heights of at least 0 and below `INT_MAX`, `balance` returns
without dereferencing an absent child: when the vertex is left heavy its left
child exists, and when the double rotation is taken the right child of that
left child exists; the same holds mirrored when the vertex is right heavy. -/
theorem balance32_children_exist (h : Int) (l r : Vertex T) (d : T)
    (hl : heightsInRange l = true) (hr : heightsInRange r = true) :
    (∃ t2, balance32 (node h l d r) = some t2) ∧
    (getWeight32 (node h l d r) = some WeightStatus.LEFT_HEAVY →
      ∃ lh ll ld lr, l = node lh ll ld lr ∧
        ∀ w, getWeight32 l = some w → w ≠ WeightStatus.LEFT_HEAVY →
          w ≠ WeightStatus.BALANCED → ∃ xh xl xd xr, lr = node xh xl xd xr) ∧
    (getWeight32 (node h l d r) = some WeightStatus.RIGHT_HEAVY →
      ∃ rh rl rd rr, r = node rh rl rd rr ∧
        ∀ w, getWeight32 r = some w → w ≠ WeightStatus.RIGHT_HEAVY →
          w ≠ WeightStatus.BALANCED → ∃ xh xl xd xr, rl = node xh xl xd xr) := by
  have wl := wellFormed_of_heightsInRange hl
  have wr := wellFormed_of_heightsInRange hr
  have gl := ht_ge_of_wellFormed wl
  have gr := ht_ge_of_wellFormed wr
  refine ⟨?_, ?_, ?_⟩
  · rw [balance32, getWeight32_node h d hl hr]
    simp only [Option.bind_eq_bind, Option.some_bind, classify_left, classify_right]
    by_cases h1 : 1 < ht l - ht r
    · obtain ⟨lh, ll, ld, lr, rfl⟩ := exists_node_of_ht wl (by omega)
      obtain ⟨_, hll, hlr⟩ := heightsInRange_node.mp hl
      have wll := wellFormed_of_heightsInRange hll
      have wlr := wellFormed_of_heightsInRange hlr
      have glr := ht_ge_of_wellFormed wlr
      have gll := ht_ge_of_wellFormed wll
      rw [if_pos h1, getWeight32_node lh ld hll hlr]
      simp only [Option.bind_eq_bind, Option.some_bind, classify_left, classify_balanced]
      split_ifs with h3
      · obtain ⟨a, b, e⟩ := rightRotation32_defined h lh d ld
          (ne_dangling_of_wellFormed wll) (ne_dangling_of_wellFormed wlr)
          (ne_dangling_of_wellFormed wr)
        exact ⟨_, e⟩
      · obtain ⟨lrh, lrl, lrd, lrr, rfl⟩ := exists_node_of_ht wlr (by omega)
        obtain ⟨_, wlrl, wlrr⟩ := wellFormed_node.mp wlr
        obtain ⟨a, b, e⟩ := leftRotation32_defined lh lrh ld lrd
          (ne_dangling_of_wellFormed wll) (ne_dangling_of_wellFormed wlrl)
          (ne_dangling_of_wellFormed wlrr)
        rw [e]
        simp only [Option.bind_eq_bind, Option.some_bind]
        obtain ⟨a2, b2, e2⟩ := rightRotation32_defined h a d lrd
          (show node b ll ld lrl ≠ dangling by simp) (ne_dangling_of_wellFormed wlrr)
          (ne_dangling_of_wellFormed wr)
        exact ⟨_, e2⟩
    · rw [if_neg h1]
      by_cases h2 : ht l - ht r < -1
      · obtain ⟨rh, rl, rd, rr, rfl⟩ := exists_node_of_ht wr (by omega)
        obtain ⟨_, hrl, hrr⟩ := heightsInRange_node.mp hr
        have wrl := wellFormed_of_heightsInRange hrl
        have wrr := wellFormed_of_heightsInRange hrr
        have grl := ht_ge_of_wellFormed wrl
        have grr := ht_ge_of_wellFormed wrr
        rw [if_pos h2, getWeight32_node rh rd hrl hrr]
        simp only [Option.bind_eq_bind, Option.some_bind, classify_right, classify_balanced]
        split_ifs with h3
        · obtain ⟨a, b, e⟩ := leftRotation32_defined h rh d rd
            (ne_dangling_of_wellFormed wl) (ne_dangling_of_wellFormed wrl)
            (ne_dangling_of_wellFormed wrr)
          exact ⟨_, e⟩
        · obtain ⟨rlh, rll, rld, rlr, rfl⟩ := exists_node_of_ht wrl (by omega)
          obtain ⟨_, wrll, wrlr⟩ := wellFormed_node.mp wrl
          obtain ⟨a, b, e⟩ := rightRotation32_defined rh rlh rd rld
            (ne_dangling_of_wellFormed wrll) (ne_dangling_of_wellFormed wrlr)
            (ne_dangling_of_wellFormed wrr)
          rw [e]
          simp only [Option.bind_eq_bind, Option.some_bind]
          obtain ⟨a2, b2, e2⟩ := leftRotation32_defined h a d rld
            (ne_dangling_of_wellFormed wl) (ne_dangling_of_wellFormed wrll)
            (show node b rlr rd rr ≠ dangling by simp)
          exact ⟨_, e2⟩
      · rw [if_neg h2]
        exact ⟨node h l d r, rfl⟩
  · intro hw
    rw [getWeight32_node h d hl hr, Option.some.injEq, classify_left] at hw
    obtain ⟨lh, ll, ld, lr, rfl⟩ := exists_node_of_ht wl (by omega)
    obtain ⟨_, hll, hlr⟩ := heightsInRange_node.mp hl
    have gll := ht_ge_of_wellFormed (wellFormed_of_heightsInRange hll)
    refine ⟨lh, ll, ld, lr, rfl, ?_⟩
    intro w hw2 n1 n2
    rw [getWeight32_node lh ld hll hlr, Option.some.injEq] at hw2
    subst hw2
    rw [Ne, classify_left] at n1
    rw [Ne, classify_balanced] at n2
    exact exists_node_of_ht (wellFormed_of_heightsInRange hlr) (by omega)
  · intro hw
    rw [getWeight32_node h d hl hr, Option.some.injEq, classify_right] at hw
    obtain ⟨rh, rl, rd, rr, rfl⟩ := exists_node_of_ht wr (by omega)
    obtain ⟨_, hrl, hrr⟩ := heightsInRange_node.mp hr
    have grr := ht_ge_of_wellFormed (wellFormed_of_heightsInRange hrr)
    refine ⟨rh, rl, rd, rr, rfl, ?_⟩
    intro w hw2 n1 n2
    rw [getWeight32_node rh rd hrl hrr, Option.some.injEq] at hw2
    subst hw2
    rw [Ne, classify_right] at n1
    rw [Ne, classify_balanced] at n2
    exact exists_node_of_ht (wellFormed_of_heightsInRange hrl) (by omega)

/-- Instance of the amended C20 on a left-heavy vertex whose left child is
right heavy, where `balance` takes the double rotation. -/
theorem balance32_children_exist_witness :
    heightsInRange (node 2 null 1 (node 1 null 2 (node 0 null 3 null)) : Vertex Nat) = true ∧
    heightsInRange (null : Vertex Nat) = true ∧
    ((∃ t2, balance32 (node 3 (node 2 null 1 (node 1 null 2 (node 0 null 3 null))) 4 null
        : Vertex Nat) = some t2) ∧
    (getWeight32 (node 3 (node 2 null 1 (node 1 null 2 (node 0 null 3 null))) 4 null
        : Vertex Nat) = some WeightStatus.LEFT_HEAVY →
      ∃ lh ll ld lr, (node 2 null 1 (node 1 null 2 (node 0 null 3 null)) : Vertex Nat)
          = node lh ll ld lr ∧
        ∀ w, getWeight32 (node 2 null 1 (node 1 null 2 (node 0 null 3 null)) : Vertex Nat)
            = some w → w ≠ WeightStatus.LEFT_HEAVY →
          w ≠ WeightStatus.BALANCED → ∃ xh xl xd xr, lr = node xh xl xd xr) ∧
    (getWeight32 (node 3 (node 2 null 1 (node 1 null 2 (node 0 null 3 null))) 4 null
        : Vertex Nat) = some WeightStatus.RIGHT_HEAVY →
      ∃ rh rl rd rr, (null : Vertex Nat) = node rh rl rd rr ∧
        ∀ w, getWeight32 (null : Vertex Nat) = some w → w ≠ WeightStatus.RIGHT_HEAVY →
          w ≠ WeightStatus.BALANCED → ∃ xh xl xd xr, rl = node xh xl xd xr)) :=
  ⟨by decide, by decide,
    balance32_children_exist 3 (node 2 null 1 (node 1 null 2 (node 0 null 3 null))) null 4
      (by decide) (by decide)⟩

end Vertex

namespace Vertex

variable {T : Type}

theorem ht_lt_numNodes {t : Vertex T} (hc : heightCorrect t = true) :
    ht t + 1 ≤ (numNodes t : Int) := by
  induction t with
  | null => simp [ht, numNodes]
  | dangling => simp [heightCorrect] at hc
  | node h l d r ihl ihr =>
    obtain ⟨c1, c2⟩ := heightCorrect_children hc
    have e := ((heightCorrect_node (heightCorrect_wellFormed c1)
      (heightCorrect_wellFormed c2)).mp hc).1
    have i1 := ihl c1
    have i2 := ihr c2
    simp only [ht_node, numNodes, Nat.cast_add, Nat.cast_one]
    omega

theorem updateHeight32_eq {l r : Vertex T} (h : Int) (d : T)
    (wl : wellFormed l = true) (wr : wellFormed r = true)
    (hb : 1 + Max.max (ht l) (ht r) ≤ INT_MAX) :
    updateHeight32 (node h l d r) = some (node (1 + Max.max (ht l) (ht r)) l d r) := by
  have g1 := ht_ge_of_wellFormed wl
  have g2 := ht_ge_of_wellFormed wr
  have hm : INT_MAX = 2147483647 := rfl
  rw [updateHeight32_node h d (ne_dangling_of_wellFormed wl) (ne_dangling_of_wellFormed wr),
    wrapInt_of_range _ (by omega) (by omega)]

theorem leftRotation32_eq {l rl rr : Vertex T} (h rh : Int) (d rd : T)
    (cl : heightCorrect l = true) (crl : heightCorrect rl = true)
    (crr : heightCorrect rr = true)
    (hb : (numNodes l : Int) + numNodes rl + numNodes rr + 2 ≤ INT_MAX) :
    leftRotation32 (node h l d (node rh rl rd rr)) =
      leftRotation (node h l d (node rh rl rd rr)) := by
  have wl := heightCorrect_wellFormed cl
  have wrl := heightCorrect_wellFormed crl
  have wrr := heightCorrect_wellFormed crr
  have n1 := ht_lt_numNodes cl
  have n2 := ht_lt_numNodes crl
  have n3 := ht_lt_numNodes crr
  have hn := wellFormed_updated d rfl wl wrl
  rw [leftRotation32, leftRotation, updateHeight32_eq h d wl wrl (by omega),
    updateHeight_node h d wl wrl]
  simp only [Option.bind_eq_bind, Option.some_bind]
  rw [updateHeight32_eq rh rd hn wrr (by rw [ht_node]; omega), updateHeight_node rh rd hn wrr]

theorem rightRotation32_eq {ll lr r : Vertex T} (h lh : Int) (d ld : T)
    (cll : heightCorrect ll = true) (clr : heightCorrect lr = true)
    (cr : heightCorrect r = true)
    (hb : (numNodes ll : Int) + numNodes lr + numNodes r + 2 ≤ INT_MAX) :
    rightRotation32 (node h (node lh ll ld lr) d r) =
      rightRotation (node h (node lh ll ld lr) d r) := by
  have wll := heightCorrect_wellFormed cll
  have wlr := heightCorrect_wellFormed clr
  have wr := heightCorrect_wellFormed cr
  have n1 := ht_lt_numNodes cll
  have n2 := ht_lt_numNodes clr
  have n3 := ht_lt_numNodes cr
  have hn := wellFormed_updated d rfl wlr wr
  rw [rightRotation32, rightRotation, updateHeight32_eq h d wlr wr (by omega),
    updateHeight_node h d wlr wr]
  simp only [Option.bind_eq_bind, Option.some_bind]
  rw [updateHeight32_eq lh ld wll hn (by rw [ht_node]; omega), updateHeight_node lh ld wll hn]

theorem getWeight32_eq {l r : Vertex T} (h : Int) (d : T)
    (cl : heightCorrect l = true) (cr : heightCorrect r = true)
    (hb : (numNodes l : Int) + numNodes r + 1 ≤ INT_MAX) :
    getWeight32 (node h l d r) = getWeight (node h l d r) := by
  have wl := heightCorrect_wellFormed cl
  have wr := heightCorrect_wellFormed cr
  have n1 := ht_lt_numNodes cl
  have n2 := ht_lt_numNodes cr
  rw [getWeight32_of_bounds h d wl wr (by omega) (by omega), getWeight_node h d wl wr]

/-- On a vertex whose subtrees have correct stored heights and fewer than
`INT_MAX` vertices together, no `int` expression of `balance` leaves the range
of `int`, and the two readings of `balance` agree. -/
theorem balance32_eq (h : Int) (l r : Vertex T) (d : T)
    (cl : heightCorrect l = true) (cr : heightCorrect r = true)
    (hb : (numNodes l : Int) + numNodes r + 1 ≤ INT_MAX) :
    balance32 (node h l d r) = balance (node h l d r) := by
  have wl := heightCorrect_wellFormed cl
  have wr := heightCorrect_wellFormed cr
  have gl := ht_ge_of_wellFormed wl
  have gr := ht_ge_of_wellFormed wr
  rw [balance32, balance, getWeight32_eq h d cl cr hb, getWeight_node h d wl wr]
  simp only [Option.bind_eq_bind, Option.some_bind, classify_left, classify_right]
  by_cases h1 : 1 < ht l - ht r
  · obtain ⟨lh, ll, ld, lr, rfl⟩ := exists_node_of_ht wl (by omega)
    obtain ⟨cll, clr⟩ := heightCorrect_children cl
    have wll := heightCorrect_wellFormed cll
    have wlr := heightCorrect_wellFormed clr
    have gll := ht_ge_of_wellFormed wll
    have glr := ht_ge_of_wellFormed wlr
    simp only [numNodes, Nat.cast_add, Nat.cast_one] at hb
    rw [if_pos h1, if_pos h1, getWeight32_eq lh ld cll clr (by omega),
      getWeight_node lh ld wll wlr]
    simp only [Option.bind_eq_bind, Option.some_bind, classify_left, classify_balanced]
    split_ifs with h3
    · exact rightRotation32_eq h lh d ld cll clr cr (by omega)
    · obtain ⟨lrh, lrl, lrd, lrr, rfl⟩ := exists_node_of_ht wlr (by omega)
      obtain ⟨clrl, clrr⟩ := heightCorrect_children clr
      obtain ⟨_, wlrl, wlrr⟩ := wellFormed_node.mp wlr
      simp only [numNodes, Nat.cast_add, Nat.cast_one] at hb
      rw [leftRotation32_eq lh lrh ld lrd cll clrl clrr (by omega)]
      obtain ⟨m, m1, m2, _, m4, m5⟩ := leftRotation_spec lh lrh ld lrd wll wlrl wlrr
      rw [m1]
      simp only [Option.bind_eq_bind, Option.some_bind]
      obtain ⟨mh, ml, md, mr, rfl⟩ : ∃ mh ml md mr, m = node mh ml md mr := by
        cases m with
        | null => simp [numNodes] at m4
        | dangling => simp [wellFormed] at m2
        | node mh ml md mr => exact ⟨mh, ml, md, mr, rfl⟩
      obtain ⟨cml, cmr⟩ := heightCorrect_children (m5 cll clrl clrr)
      simp only [numNodes] at m4
      exact rightRotation32_eq h mh d md cml cmr cr (by omega)
  · rw [if_neg h1, if_neg h1]
    by_cases h2 : ht l - ht r < -1
    · obtain ⟨rh, rl, rd, rr, rfl⟩ := exists_node_of_ht wr (by omega)
      obtain ⟨crl, crr⟩ := heightCorrect_children cr
      have wrl := heightCorrect_wellFormed crl
      have wrr := heightCorrect_wellFormed crr
      have grl := ht_ge_of_wellFormed wrl
      have grr := ht_ge_of_wellFormed wrr
      simp only [numNodes, Nat.cast_add, Nat.cast_one] at hb
      rw [if_pos h2, if_pos h2, getWeight32_eq rh rd crl crr (by omega),
        getWeight_node rh rd wrl wrr]
      simp only [Option.bind_eq_bind, Option.some_bind, classify_right, classify_balanced]
      split_ifs with h3
      · exact leftRotation32_eq h rh d rd cl crl crr (by omega)
      · obtain ⟨rlh, rll, rld, rlr, rfl⟩ := exists_node_of_ht wrl (by omega)
        obtain ⟨crll, crlr⟩ := heightCorrect_children crl
        obtain ⟨_, wrll, wrlr⟩ := wellFormed_node.mp wrl
        simp only [numNodes, Nat.cast_add, Nat.cast_one] at hb
        rw [rightRotation32_eq rh rlh rd rld crll crlr crr (by omega)]
        obtain ⟨m, m1, m2, _, m4, m5⟩ := rightRotation_spec rh rlh rd rld wrll wrlr wrr
        rw [m1]
        simp only [Option.bind_eq_bind, Option.some_bind]
        obtain ⟨mh, ml, md, mr, rfl⟩ : ∃ mh ml md mr, m = node mh ml md mr := by
          cases m with
          | null => simp [numNodes] at m4
          | dangling => simp [wellFormed] at m2
          | node mh ml md mr => exact ⟨mh, ml, md, mr, rfl⟩
        obtain ⟨cml, cmr⟩ := heightCorrect_children (m5 crll crlr crr)
        simp only [numNodes] at m4
        exact leftRotation32_eq h mh d md cl cml cmr (by omega)
    · rw [if_neg h2, if_neg h2]

end Vertex

namespace Vertex

variable {T : Type} [LinearOrder T]

/-- On a tree with correct stored heights and fewer than `INT_MAX` vertices,
with a counter that `++` keeps inside the range of `int`, no `int` expression
of the recursive `insert` leaves that range, and the two readings agree. -/
theorem insert32_eq (x : T) (t : Vertex T) (hc : heightCorrect t = true)
    (hb : (numNodes t : Int) < INT_MAX) (n : Int)
    (hlo : -2147483648 ≤ n + 1) (hhi : n + 1 ≤ 2147483647) :
    insert32 x t n = insert x t n := by
  have hm : INT_MAX = 2147483647 := rfl
  induction t generalizing n with
  | dangling => rfl
  | null =>
    have wn : wellFormed (null : Vertex T) = true := rfl
    rw [insert32, insert, updateHeight32_eq 0 x wn wn (by simp [ht, INT_MAX]),
      updateHeight_node 0 x wn wn]
    simp only [Option.bind_eq_bind, Option.some_bind]
    rw [balance32_eq _ null null x rfl rfl (by simp [numNodes, INT_MAX]),
      wrapInt_of_range _ hlo hhi]
  | node h l d r ihl ihr =>
    obtain ⟨cl, cr⟩ := heightCorrect_children hc
    have wl := heightCorrect_wellFormed cl
    have wr := heightCorrect_wellFormed cr
    simp only [numNodes, Nat.cast_add, Nat.cast_one] at hb
    by_cases hx : x > d
    · obtain ⟨r2, i1, i2, i3, i4, _⟩ := insert_spec x r wr n
      have cr2 := i4 cr
      have n1 := ht_lt_numNodes cl
      have n2 := ht_lt_numNodes cr2
      rw [insert32, insert, if_pos hx, if_pos hx, ihr cr (by omega) n hlo hhi, i1]
      simp only [Option.bind_eq_bind, Option.some_bind]
      rw [updateHeight32_eq h d wl i2 (by omega), updateHeight_node h d wl i2]
      simp only [Option.some_bind]
      rw [balance32_eq _ l r2 d cl cr2 (by omega)]
    · obtain ⟨l2, i1, i2, i3, i4, _⟩ := insert_spec x l wl n
      have cl2 := i4 cl
      have n1 := ht_lt_numNodes cl2
      have n2 := ht_lt_numNodes cr
      rw [insert32, insert, if_neg hx, if_neg hx, ihl cl (by omega) n hlo hhi, i1]
      simp only [Option.bind_eq_bind, Option.some_bind]
      rw [updateHeight32_eq h d i2 wr (by omega), updateHeight_node h d i2 wr]
      simp only [Option.some_bind]
      rw [balance32_eq _ l2 r d cl2 cr (by omega)]

end Vertex

namespace AVL

variable {T : Type} [LinearOrder T]

theorem insert32_root_eq (t : AVL T) (v : T) (hc : Vertex.heightCorrect t.root = true)
    (hb : (Vertex.numNodes t.root : Int) < INT_MAX)
    (hlo : -INT_MAX - 1 ≤ t.numberOfElements) (hhi : t.numberOfElements < INT_MAX) :
    t.insert32 v = t.insert v := by
  have hm : INT_MAX = 2147483647 := rfl
  rw [insert32, insert,
    Vertex.insert32_eq v t.root hc hb t.numberOfElements (by omega) (by omega)]

theorem insertAll32_eq (xs : List T) (t : AVL T) (hc : Vertex.heightCorrect t.root = true)
    (hb : (Vertex.numNodes t.root : Int) + xs.length ≤ INT_MAX)
    (hlo : -INT_MAX - 1 ≤ t.numberOfElements)
    (hhi : t.numberOfElements + xs.length ≤ INT_MAX) :
    insertAll32 xs t = insertAll xs t := by
  induction xs generalizing t with
  | nil => rfl
  | cons x xs ih =>
    simp only [List.length_cons, Nat.cast_add, Nat.cast_one] at hb hhi
    have hw := Vertex.heightCorrect_wellFormed hc
    obtain ⟨t1, e1, _, e3, e4, e5, _⟩ := insert_root_spec t x hw
    rw [insertAll32, insertAll, insert32_root_eq t x hc (by omega) hlo (by omega), e1]
    simp only [Option.bind_eq_bind, Option.some_bind]
    exact ih t1 (e5 hc) (by rw [e4]; push_cast; omega) (by omega) (by omega)

/-- C4 fails as stated.  The copy constructor leaves `numberOfElements`
uninitialised, so an empty copy may hold `INT_MAX` there; `insert(1)` on that
tree wraps the counter, and `size()` is `-2147483648` instead of one more than
before.  On the tree 3 with left child 2 and left grandchild 1 whose stored
height is `INT_MAX`, `insert(4)` makes `getWeight` of the vertex 2 wrap and
`balance` rotates on its absent right child, so the call does not return. -/
theorem insert32_overflow_example :
    copy 0 2147483647 (empty : AVL Nat) = some ⟨Vertex.null, Vertex.null, 2147483647⟩ ∧
    (⟨Vertex.null, Vertex.null, 2147483647⟩ : AVL Nat).insert32 1 =
      some ⟨Vertex.node 0 Vertex.null 1 Vertex.null, Vertex.null, -2147483648⟩ ∧
    ((⟨Vertex.null, Vertex.null, 2147483647⟩ : AVL Nat).insert32 1).map size ≠
      some ((⟨Vertex.null, Vertex.null, 2147483647⟩ : AVL Nat).size + 1) ∧
    Vertex.wellFormed (Vertex.node 5 (Vertex.node 5
      (Vertex.node 2147483647 Vertex.null 1 Vertex.null) 2 Vertex.null) 3 Vertex.null
      : Vertex Nat) = true ∧
    (⟨Vertex.node 5 (Vertex.node 5 (Vertex.node 2147483647 Vertex.null 1 Vertex.null) 2
      Vertex.null) 3 Vertex.null, Vertex.null, 3⟩ : AVL Nat).insert32 4 = none := by
  decide

/-- C4 as amended: on every tree whose stored heights are correct, that has
fewer than `INT_MAX` vertices and whose counter is an `int` below `INT_MAX`,
and for every value `v` (a stored one included), `insert(v)` returns, `size()`
grows by exactly one and the tree holds exactly one more vertex, the values
being the old ones and `v`; and for every tree built from the empty tree by at
most `INT_MAX` inserts `size()` is the number of values a full in-order
traversal yields. -/
theorem insert32_size (t : AVL T) (v : T) (xs : List T)
    (hc : Vertex.heightCorrect t.root = true)
    (hb : (Vertex.numNodes t.root : Int) < INT_MAX)
    (hlo : -INT_MAX - 1 ≤ t.numberOfElements) (hhi : t.numberOfElements < INT_MAX)
    (hx : (xs.length : Int) ≤ INT_MAX) :
    (∃ t2, t.insert32 v = some t2 ∧ t2.size = t.size + 1 ∧
      Vertex.numNodes t2.root = Vertex.numNodes t.root + 1 ∧
      (Vertex.toList t2.root).Perm (v :: Vertex.toList t.root) ∧
      Vertex.heightCorrect t2.root = true) ∧
    (∃ u out, build32 xs = some u ∧ u.displayInOrder = some out ∧
      u.size = (out.length : Int)) := by
  have hm : INT_MAX = 2147483647 := rfl
  constructor
  · obtain ⟨t2, e1, _, e3, e4, e5, _, e7, _⟩ :=
      insert_root_spec t v (Vertex.heightCorrect_wellFormed hc)
    exact ⟨t2, (insert32_root_eq t v hc hb hlo hhi).trans e1, e3, e4, e7, e5 hc⟩
  · obtain ⟨u, e1, e2, _, e4, _, e6, _⟩ := build_spec xs
    have hb32 : build32 xs = build xs := by
      rw [build32, build]
      exact insertAll32_eq xs empty rfl (by simpa [empty, Vertex.numNodes] using hx)
        (by simp [empty, INT_MAX]) (by simpa [empty] using hx)
    refine ⟨u, Vertex.toList u.root, hb32.trans e1,
      Vertex.displayInOrder_of_wellFormed e2, ?_⟩
    rw [size, e4, e6, List.length_insertionSort]

/-- Instance of the amended C4: inserting `5` into the one-vertex tree that
already holds `5`, and the tree built from `[5, 5]`. -/
theorem insert32_size_witness :
    Vertex.heightCorrect (Vertex.node 0 Vertex.null 5 Vertex.null : Vertex Nat) = true ∧
    (Vertex.numNodes (Vertex.node 0 Vertex.null 5 Vertex.null : Vertex Nat) : Int)
      < INT_MAX ∧
    -INT_MAX - 1 ≤ (1 : Int) ∧ (1 : Int) < INT_MAX ∧ (([5, 5] : List Nat).length : Int) ≤ INT_MAX ∧
    ((∃ t2, (⟨Vertex.node 0 Vertex.null 5 Vertex.null, Vertex.null, 1⟩ : AVL Nat).insert32 5
        = some t2 ∧
      t2.size = (⟨Vertex.node 0 Vertex.null 5 Vertex.null, Vertex.null, 1⟩ : AVL Nat).size + 1 ∧
      Vertex.numNodes t2.root =
        Vertex.numNodes (Vertex.node 0 Vertex.null 5 Vertex.null : Vertex Nat) + 1 ∧
      (Vertex.toList t2.root).Perm
        (5 :: Vertex.toList (Vertex.node 0 Vertex.null 5 Vertex.null : Vertex Nat)) ∧
      Vertex.heightCorrect t2.root = true) ∧
    (∃ u out, build32 [5, 5] = some u ∧ u.displayInOrder = some out ∧
      u.size = (out.length : Int))) :=
  ⟨by decide, by decide, by decide, by decide, by decide,
    insert32_size ⟨Vertex.node 0 Vertex.null 5 Vertex.null, Vertex.null, 1⟩ 5
      [5, 5] (by decide) (by decide) (by decide) (by decide) (by decide)⟩

end AVL
